import Mathlib

/-!
Verification of the board-game core (Board, rule strategies, GameLogic,
AI strategies) of the multi-game platform.  All definitions are shallow
embeddings of the Python source: `Board` from model/board.py, the three
rule strategies and `GameLogic` from the second-stage model package, and
the AI strategies (Random, greedy evaluators, MCTS) from ai_strategy.py.
Python's in-place board mutation is modelled by explicit state passing:
functions that mutate a board in the source return the resulting board.
Coordinates are integers, as in the source; bounds are checked exactly
where the source checks them.
-/

namespace GamePlatform

/-- Piece colors.  The source uses the strings "black" and "white"; the
flyweight piece objects carry only their color, so a cell is modelled as
an optional color. -/
inductive Color where
  | black
  | white
deriving DecidableEq, Repr

/-- Opponent color: `"white" if color == "black" else "black"` in the source. -/
def Color.opponent : Color → Color
  | .black => .white
  | .white => .black

/-- Possible winner values returned by check_winner: a color or a draw. -/
inductive Winner where
  | black
  | white
  | draw
deriving DecidableEq, Repr

/-- The winner value naming a given color. -/
def Winner.ofColor : Color → Winner
  | .black => .black
  | .white => .white

/-- The board: a size and a grid of optional colored pieces, from
model/board.py.  The grid is total on integer coordinates; all accessors
bound-check exactly as the source does. -/
structure Board where
  size : Nat
  grid : Int → Int → Option Color

/-- In-bounds test `0 <= x < self.size and 0 <= y < self.size`. -/
def Board.InB (b : Board) (x y : Int) : Prop :=
  0 ≤ x ∧ x < (b.size : Int) ∧ 0 ≤ y ∧ y < (b.size : Int)

instance (b : Board) (x y : Int) : Decidable (b.InB x y) :=
  inferInstanceAs (Decidable (_ ∧ _ ∧ _ ∧ _))

/-- Pointwise update of a grid at one cell. -/
def setCell (g : Int → Int → Option Color) (x y : Int) (v : Option Color) :
    Int → Int → Option Color :=
  fun a b => if a = x ∧ b = y then v else g a b

/-- Board.get_piece: the piece at (x, y), or None when out of bounds. -/
def Board.get_piece (b : Board) (x y : Int) : Option Color :=
  if b.InB x y then b.grid x y else none

/-- Board.place_piece: succeeds iff in bounds and the cell is empty;
returns the success flag and the resulting board. -/
def Board.place_piece (b : Board) (x y : Int) (c : Color) : Bool × Board :=
  if b.InB x y ∧ b.grid x y = none then
    (true, { b with grid := setCell b.grid x y (some c) })
  else
    (false, b)

/-- Board.remove_piece: succeeds iff in bounds and the cell is occupied. -/
def Board.remove_piece (b : Board) (x y : Int) : Bool × Board :=
  if b.InB x y ∧ b.grid x y ≠ none then
    (true, { b with grid := setCell b.grid x y none })
  else
    (false, b)

/-- Board.is_empty: `get_piece(x, y) is None`. -/
def Board.is_empty (b : Board) (x y : Int) : Prop :=
  b.get_piece x y = none

instance (b : Board) (x y : Int) : Decidable (b.is_empty x y) :=
  inferInstanceAs (Decidable (_ = _))

/-- Board.clear: replace the grid by a fresh all-empty grid. -/
def Board.clear (b : Board) : Board :=
  { b with grid := fun _ _ => none }

/-- Board.clone: a fresh board of the same size whose in-range cells copy
the original's pieces (the source allocates a new empty grid and places a
shared flyweight piece of the same color for every occupied cell). -/
def Board.clone (b : Board) : Board :=
  { size := b.size, grid := fun x y => if b.InB x y then b.grid x y else none }

/-- Cells counted by a predicate over the scan the strategies use
(`for y in range(size): for x in range(size)`). -/
def Board.countCells (b : Board) (p : Option Color → Bool) : Nat :=
  ((List.range b.size).map fun y =>
    ((List.range b.size).filter fun x => p (b.get_piece (x : Int) (y : Int))).length).sum

/-- Number of black stones on the board. -/
def blackCount (b : Board) : Nat := b.countCells (· = some Color.black)

/-- Number of white stones on the board. -/
def whiteCount (b : Board) : Nat := b.countCells (· = some Color.white)

/-- Number of empty in-range cells. -/
def emptyCount (b : Board) : Nat := b.countCells (· = none)

/-- The cell scan order every full-board loop of the source uses
(y outer, x inner). -/
def cellList (n : Nat) : List (Int × Int) :=
  (List.range n).flatMap fun (y : Nat) =>
    (List.range n).map fun (x : Nat) => ((x : Int), (y : Int))

/-! ## Gomoku rule strategy -/

/-- GomokuRuleStrategy.check_valid_move: only bounds and emptiness. -/
def gomokuCheckValid (b : Board) (x y : Int) (_c : Color) : Bool × String × Board :=
  if ¬ b.InB x y then (false, "位置超出棋盘范围", b)
  else if ¬ b.is_empty x y then (false, "该位置已有棋子", b)
  else (true, "", b)

/-- The four line directions scanned by GomokuRuleStrategy.check_winner. -/
def gomokuDirs : List (Int × Int) := [(0, 1), (1, 0), (1, 1), (1, -1)]

/-- One directional arm of the win scan: starting from (x, y), walk up to
the given number of further steps in direction (dx, dy) and count the
contiguous stones of color c (the source's `for step in range(1, 5)` loop
with its breaks on a border, an empty cell or an enemy stone). -/
def countConsec (b : Board) (c : Color) : Int → Int → Int → Int → Nat → Nat
  | _, _, _, _, 0 => 0
  | x, y, dx, dy, n + 1 =>
    let nx := x + dx
    let ny := y + dy
    match b.get_piece nx ny with
    | some c' => if c' = c then 1 + countConsec b c nx ny dx dy n else 0
    | none => 0

/-- The full line count through (x, y) in direction (dx, dy): the stone
itself plus both four-step arms. -/
def gomokuLineCount (b : Board) (c : Color) (x y dx dy : Int) : Nat :=
  1 + countConsec b c x y dx dy 4 + countConsec b c x y (-dx) (-dy) 4

/-- Iterate the win scan over a list of directions, returning on the
first direction whose line count reaches five. -/
def gomokuScanDirs (b : Board) (c : Color) (x y : Int) :
    List (Int × Int) → Bool × Option Winner
  | [] => (false, none)
  | (dx, dy) :: rest =>
    if 5 ≤ gomokuLineCount b c x y dx dy then (true, some (Winner.ofColor c))
    else gomokuScanDirs b c x y rest

/-- GomokuRuleStrategy.check_winner: scan the four directions from the
last-placed stone; with no last move or an empty cell there, no winner. -/
def gomokuCheckWinner (b : Board) (last : Option (Int × Int)) : Bool × Option Winner :=
  match last with
  | none => (false, none)
  | some (x, y) =>
    match b.get_piece x y with
    | none => (false, none)
    | some c => gomokuScanDirs b c x y gomokuDirs

/-! ## Go rule strategy -/

/-- The four orthogonal neighbor directions used by the Go strategy. -/
def goNeighborDirs : List (Int × Int) := [(-1, 0), (1, 0), (0, -1), (0, 1)]

/-- GoRuleStrategy.has_liberties: recursive flood fill with a shared
visited set, threaded explicitly (the Python `checked` set is mutated in
place across sibling recursive calls).  The four-direction neighbor loop
is unrolled in the source's order (-1,0), (1,0), (0,-1), (0,1): an
in-bounds empty neighbor yields a liberty at once, a same-color neighbor
is explored recursively with the shared visited set, and enemy or
out-of-bounds neighbors are skipped.  The fuel bounds the recursion
nesting depth; every nested call adds a fresh in-bounds cell to the
visited set before recursing, so a fuel of size * size + 1 is never
exhausted on any board. -/
def hasLibAux : Nat → Board → Int → Int → List (Int × Int) → Bool × List (Int × Int)
  | 0, _, _, _, ch => (false, ch)
  | fuel + 1, b, x, y, ch =>
    match b.get_piece x y with
    | none => (false, ch)
    | some c =>
      if (x, y) ∈ ch then (false, ch)
      else
        let ch0 := (x, y) :: ch
        let r1 : Bool × List (Int × Int) :=
          if b.InB (x - 1) y then
            match b.grid (x - 1) y with
            | none => (true, ch0)
            | some c' =>
              if c' = c then hasLibAux fuel b (x - 1) y ch0 else (false, ch0)
          else (false, ch0)
        if r1.1 then (true, r1.2)
        else
          let r2 : Bool × List (Int × Int) :=
            if b.InB (x + 1) y then
              match b.grid (x + 1) y with
              | none => (true, r1.2)
              | some c' =>
                if c' = c then hasLibAux fuel b (x + 1) y r1.2 else (false, r1.2)
            else (false, r1.2)
          if r2.1 then (true, r2.2)
          else
            let r3 : Bool × List (Int × Int) :=
              if b.InB x (y - 1) then
                match b.grid x (y - 1) with
                | none => (true, r2.2)
                | some c' =>
                  if c' = c then hasLibAux fuel b x (y - 1) r2.2 else (false, r2.2)
              else (false, r2.2)
            if r3.1 then (true, r3.2)
            else
              if b.InB x (y + 1) then
                match b.grid x (y + 1) with
                | none => (true, r3.2)
                | some c' =>
                  if c' = c then hasLibAux fuel b x (y + 1) r3.2 else (false, r3.2)
              else (false, r3.2)

/-- has_liberties called with a fresh visited set, as every call site in
the source does. -/
def goHasLib (b : Board) (x y : Int) : Bool :=
  (hasLibAux (b.size * b.size + 1) b x y []).1

/-- The list of enemy stones without liberties, collected by
remove_dead_stones before any removal (scan order: y outer, x inner). -/
def goDeadList (b : Board) (pc : Color) : List (Int × Int) :=
  (cellList b.size).filter fun p =>
    match b.get_piece p.1 p.2 with
    | some c => decide (c ≠ pc) && ! goHasLib b p.1 p.2
    | none => false

/-- Remove a list of cells from the board in order. -/
def removeList (b : Board) : List (Int × Int) → Board
  | [] => b
  | (x, y) :: rest => removeList (b.remove_piece x y).2 rest

/-- GoRuleStrategy.remove_dead_stones: remove every enemy stone without
liberties (determined on the board before any removal) and return how
many were removed. -/
def goRemoveDeadStones (b : Board) (pc : Color) : Nat × Board :=
  let l := goDeadList b pc
  (l.length, removeList b l)

/-- The capture probe of GoRuleStrategy.check_valid_move: some orthogonal
neighbor holds an enemy stone whose group has no liberties on the trial
board. -/
def goCanCapture (b : Board) (x y : Int) (c : Color) : Bool :=
  goNeighborDirs.any fun d =>
    match b.get_piece (x + d.1) (y + d.2) with
    | some c' => decide (c' = c.opponent) && ! goHasLib b (x + d.1) (y + d.2)
    | none => false

/-- GoRuleStrategy.check_valid_move: bounds and emptiness, then a trial
placement on the board itself; the trial stone is removed again before
the verdict is returned (the capture probe only runs when the trial stone
has no liberties, as in the source). -/
def goCheckValid (b : Board) (x y : Int) (c : Color) : Bool × String × Board :=
  if ¬ b.InB x y then (false, "位置超出棋盘范围", b)
  else if ¬ b.is_empty x y then (false, "该位置已有棋子", b)
  else
    let b1 := (b.place_piece x y c).2
    let hasLiberty := goHasLib b1 x y
    let canCapture := if hasLiberty then false else goCanCapture b1 x y c
    let b2 := (b1.remove_piece x y).2
    if ¬ hasLiberty ∧ ¬ canCapture then (false, "禁着点：落子无气（自杀）", b2)
    else (true, "", b2)

/-- The mutable per-match state: current turn color, game-over flag,
winner, and the variant counters (Go pass streak and capture tallies,
Reversi pass streak), unified into one record as in game_state.py. -/
structure GState where
  current_player_color : Color := Color.black
  game_over : Bool := false
  winner : Option Winner := none
  pass_count : Nat := 0
  count_black_pieces : Nat := 0
  count_white_pieces : Nat := 0

/-- GoRuleStrategy.post_move_processing: first remove the enemy stones
without liberties, then check the mover's own just-placed stone for
liberties; on suicide fail without touching the state.  On success add
the number of captures to the mover's tally. -/
def goPostMove (b : Board) (x y : Int) (c : Color) (gs : GState) :
    Bool × String × Board × GState :=
  let res := goRemoveDeadStones b c
  let captured := res.1
  let b1 := res.2
  if ¬ goHasLib b1 x y then (false, "落子后无气（自杀）", b1, gs)
  else
    let gs' :=
      if c = Color.black then
        { gs with count_black_pieces := gs.count_black_pieces + captured }
      else
        { gs with count_white_pieces := gs.count_white_pieces + captured }
    let current :=
      if c = Color.black then gs'.count_black_pieces else gs'.count_white_pieces
    (true, "提子" ++ toString captured ++ "颗，本局提子数：" ++ toString current ++ "颗",
      b1, gs')

/-- GoRuleStrategy.handle_pass: bump the consecutive pass count; when it
reaches two the game ends (set_game_over with its default winner None). -/
def goHandlePass (gs : GState) : Bool × String × GState :=
  let gs1 := { gs with pass_count := gs.pass_count + 1 }
  if 2 ≤ gs1.pass_count then
    (true, "双方连续跳过，游戏结束", { gs1 with game_over := true, winner := none })
  else
    (true, "", gs1)

/-- GoRuleStrategy.check_winner: decided purely by stone counts, and only
once the empty cells are fewer than a tenth of the board (the source
compares empty_count < total * 0.1 in floating point; on integer counts
this is the exact comparison 10 * empty < total). -/
def goCheckWinner (b : Board) (_last : Option (Int × Int)) : Bool × Option Winner :=
  let bc := blackCount b
  let wc := whiteCount b
  let ec := emptyCount b
  let total := b.size * b.size
  if 10 * ec < total then
    if wc < bc then (true, some Winner.black)
    else if bc < wc then (true, some Winner.white)
    else (true, some Winner.draw)
  else (false, none)

/-! ## Reversi rule strategy -/

/-- The eight ray directions of the Reversi strategy. -/
def revDirs : List (Int × Int) :=
  [(-1, -1), (-1, 0), (-1, 1), (0, -1), (0, 1), (1, -1), (1, 0), (1, 1)]

/-- The ray walk shared by _get_flippable_pieces and post_move_processing:
collect opposing pieces into temp until the ray leaves the board or meets
an empty cell (discard) or one of the mover's own pieces (commit temp).
One fuel unit is spent per loop iteration; the walk leaves the board
after at most size in-bounds steps, so a fuel of size + 1 always reaches
the loop's own exit. -/
def revScan (b : Board) (c : Color) (dx dy : Int) :
    Nat → Int → Int → List (Int × Int) → List (Int × Int)
  | 0, _, _, _ => []
  | fuel + 1, cx, cy, temp =>
    if b.InB cx cy then
      match b.grid cx cy with
      | none => []
      | some pc =>
        if pc = c.opponent then
          revScan b c dx dy fuel (cx + dx) (cy + dy) (temp ++ [(cx, cy)])
        else if temp = [] then [] else temp
    else []

/-- The pieces one ray flips: start one step away from the anchor. -/
def revScanDir (b : Board) (c : Color) (x y dx dy : Int) : List (Int × Int) :=
  revScan b c dx dy (b.size + 1) (x + dx) (y + dy) []

/-- The concatenation of all eight rays' flips (the loop that extends
`flippable` direction by direction). -/
def revFlipsAll (b : Board) (c : Color) (x y : Int) : List (Int × Int) :=
  revDirs.flatMap fun d => revScanDir b c x y d.1 d.2

/-- ReversiRuleStrategy._get_flippable_pieces: empty in-bounds anchor
required, then the eight-ray scan. -/
def revFlippable (b : Board) (x y : Int) (c : Color) : List (Int × Int) :=
  if ¬ b.InB x y ∨ ¬ b.is_empty x y then []
  else revFlipsAll b c x y

/-- ReversiRuleStrategy.check_valid_move: bounds, emptiness, then at
least one flippable piece (the source returns the flip list itself as the
second component on success; no caller reads it, so the success message
is modelled as the empty string). -/
def revCheckValid (b : Board) (x y : Int) (c : Color) : Bool × String × Board :=
  if ¬ b.InB x y then (false, "位置越界", b)
  else if ¬ b.is_empty x y then (false, "此处已有棋子", b)
  else if revFlipsAll b c x y = [] then (false, "无效落子：必须夹住对方棋子", b)
  else (true, "", b)

/-- Flip a list of cells to the mover's color: each flip removes the old
piece and places a new one. -/
def flipList (b : Board) (c : Color) : List (Int × Int) → Board
  | [] => b
  | (fx, fy) :: rest => flipList (((b.remove_piece fx fy).2.place_piece fx fy c).2) c rest

/-- ReversiRuleStrategy.post_move_processing: rescan the eight rays from
the already-placed stone (no anchor guard) and flip every collected
piece. -/
def revPostMove (b : Board) (x y : Int) (c : Color) (gs : GState) :
    Bool × String × Board × GState :=
  let flippable := revFlipsAll b c x y
  (true, "翻转了 " ++ toString flippable.length ++ " 枚棋子", flipList b c flippable, gs)

/-- ReversiRuleStrategy.handle_pass: same pass-streak logic as Go with
its own messages. -/
def revHandlePass (gs : GState) : Bool × String × GState :=
  let gs1 := { gs with pass_count := gs.pass_count + 1 }
  if 2 ≤ gs1.pass_count then
    (true, "双方连续跳过，游戏结束", { gs1 with game_over := true, winner := none })
  else
    (true, "回合跳过", gs1)

/-- ReversiRuleStrategy.check_winner: game over on a full board (stone
majority, draw on tie) or when one color is eliminated. -/
def revCheckWinner (b : Board) (_last : Option (Int × Int)) : Bool × Option Winner :=
  let bc := blackCount b
  let wc := whiteCount b
  let ec := emptyCount b
  let winner :=
    if bc = wc then Winner.draw
    else if wc < bc then Winner.black else Winner.white
  if ec = 0 then (true, some winner)
  else if bc = 0 then (true, some Winner.white)
  else if wc = 0 then (true, some Winner.black)
  else (false, none)

/-- ReversiRuleStrategy._is_board_empty. -/
def revIsBoardEmpty (b : Board) : Bool :=
  decide (emptyCount b = b.size * b.size)

/-- ReversiRuleStrategy._setup_initial_board: the four center stones,
placed in the source's order. -/
def revSetupInitial (b : Board) : Board :=
  let center : Int := (b.size : Int) / 2
  let p1 := center - 1
  let p2 := center
  let b1 := (b.place_piece p1 p1 Color.white).2
  let b2 := (b1.place_piece p2 p2 Color.white).2
  let b3 := (b2.place_piece p1 p2 Color.black).2
  (b3.place_piece p2 p1 Color.black).2

/-- ReversiRuleStrategy._has_valid_move: some empty cell flips at least
one piece. -/
def revHasValidMove (b : Board) (c : Color) : Bool :=
  (List.range b.size).any fun y =>
    (List.range b.size).any fun x =>
      decide (b.is_empty (x : Int) (y : Int)) &&
        ! (revFlippable b (x : Int) (y : Int) c).isEmpty

/-- ReversiRuleStrategy.on_turn_start: set up the four initial stones on
an empty board, then cache whether the mover has a legal move; skipping
is requested exactly when it has none.  Returns (skip, board, cache). -/
def revOnTurnStart (b : Board) (c : Color) : Bool × Board × Bool :=
  let b1 := if revIsBoardEmpty b then revSetupInitial b else b
  let hasMove := revHasValidMove b1 c
  (! hasMove, b1, ! hasMove)

/-! ## Strategy dispatch and GameLogic -/

/-- The three game variants, dispatching to the concrete rule strategy
subclasses. -/
inductive Strat where
  | gomoku
  | go
  | reversi
deriving DecidableEq, Repr

/-- check_valid_move of the selected strategy, with the board threaded
through (only Go's trial placement touches it, and restores it). -/
def checkValidMove : Strat → Board → Int → Int → Color → Bool × String × Board
  | .gomoku, b, x, y, c => gomokuCheckValid b x y c
  | .go, b, x, y, c => goCheckValid b x y c
  | .reversi, b, x, y, c => revCheckValid b x y c

/-- post_move_processing of the selected strategy (Gomoku has none). -/
def postMove : Strat → Board → Int → Int → Color → GState → Bool × String × Board × GState
  | .gomoku, b, _, _, _, gs => (true, "", b, gs)
  | .go, b, x, y, c, gs => goPostMove b x y c gs
  | .reversi, b, x, y, c, gs => revPostMove b x y c gs

/-- can_pass of the selected strategy; Reversi consults the flag cached
by its on_turn_start. -/
def stratCanPass : Strat → Bool → Bool × String
  | .gomoku, _ => (false, "五子棋不允许跳过")
  | .go, _ => (true, "")
  | .reversi, cache =>
    if cache then (true, "") else (false, "当前有子可落，不允许跳过")

/-- handle_pass of the selected strategy. -/
def stratHandlePass : Strat → GState → Bool × String × GState
  | .gomoku, gs => (false, "五子棋不允许跳过", gs)
  | .go, gs => goHandlePass gs
  | .reversi, gs => revHandlePass gs

/-- check_winner of the selected strategy. -/
def checkWinner : Strat → Board → Option (Int × Int) → Bool × Option Winner
  | .gomoku, b, last => gomokuCheckWinner b last
  | .go, b, last => goCheckWinner b last
  | .reversi, b, last => revCheckWinner b last

/-- on_turn_start of the selected strategy: returns the skip request, the
(possibly initialized) board and the new cached pass flag.  Gomoku and Go
never skip and never touch board or cache. -/
def onTurnStart : Strat → Board → Color → Bool → Bool × Board × Bool
  | .gomoku, b, _, cache => (false, b, cache)
  | .go, b, _, cache => (false, b, cache)
  | .reversi, b, c, _ => revOnTurnStart b c

/-- update_game_state of the selected strategy: Go and Reversi reset the
pass streak after a successful stone placement. -/
def updateGameState : Strat → GState → GState
  | .gomoku, gs => gs
  | .go, gs => { gs with pass_count := 0 }
  | .reversi, gs => { gs with pass_count := 0 }

/-- The state a GameLogic instance owns: the authoritative board, the
game state, and the Reversi strategy's cached pass flag. -/
structure LState where
  board : Board
  gs : GState
  cache : Bool := false

/-- Copy the clone's contents back onto the authoritative board: clear it
and place every piece of the clone (the commit step of make_move). -/
def commitBoard (b clone : Board) : Board :=
  (List.range clone.size).foldl
    (fun acc y =>
      (List.range clone.size).foldl
        (fun acc2 x =>
          match clone.get_piece (x : Int) (y : Int) with
          | some col => (acc2.place_piece (x : Int) (y : Int) col).2
          | none => acc2)
        acc)
    b.clear

/-- GameLogic.pass_move: check can_pass (game over first), delegate to
handle_pass, toggle the player, and report. -/
def passMove (st : Strat) (s : LState) : Bool × String × LState :=
  if s.gs.game_over then (false, "游戏已结束", s)
  else
    match stratCanPass st s.cache with
    | (false, m) => (false, m, s)
    | (true, _) =>
      let cn := if s.gs.current_player_color = Color.black then "黑方" else "白方"
      match stratHandlePass st s.gs with
      | (false, hm, gs1) => (false, hm, { s with gs := gs1 })
      | (true, hm, gs1) =>
        let gs2 := { gs1 with current_player_color := gs1.current_player_color.opponent }
        if gs2.game_over then (true, hm, { s with gs := gs2 })
        else (true, cn ++ "跳过，切换到对方回合", { s with gs := gs2 })

/-- GameLogic.make_move: reject if over; static legality; clone; place
and post-process on the clone; commit; update counters; check winner;
toggle; consult on_turn_start and auto-pass when it requests a skip. -/
def makeMove (st : Strat) (s : LState) (x y : Int) : Bool × String × LState :=
  if s.gs.game_over then (false, "游戏已结束", s)
  else
    match checkValidMove st s.board x y s.gs.current_player_color with
    | (false, msg, b1) => (false, msg, { s with board := b1 })
    | (true, _, b1) =>
      let s1 : LState := { s with board := b1 }
      let cloned := b1.clone
      match cloned.place_piece x y s.gs.current_player_color with
      | (false, _) => (false, "落子失败", s1)
      | (true, cloned1) =>
        match postMove st cloned1 x y s.gs.current_player_color s.gs with
        | (false, pm, _, gsF) => (false, pm, { s1 with gs := gsF })
        | (true, pm, cloned2, gs1) =>
          let committed := commitBoard b1 cloned2
          let gs2 := updateGameState st gs1
          match checkWinner st cloned2 (some (x, y)) with
          | (true, w) =>
            let wcn := if w = some Winner.black then "黑方" else "白方"
            (true, "游戏结束，" ++ wcn ++ "方获胜！",
              { board := committed, gs := { gs2 with game_over := true, winner := w },
                cache := s.cache })
          | (false, _) =>
            let gs3 := { gs2 with current_player_color := gs2.current_player_color.opponent }
            match onTurnStart st committed gs3.current_player_color s.cache with
            | (true, bT, cache') => passMove st { board := bT, gs := gs3, cache := cache' }
            | (false, bT, cache') =>
              (true, "落子成功" ++ pm, { board := bT, gs := gs3, cache := cache' })

/-! ## AI strategies -/

/-- The legal-move loop: probe every cell with check_valid_move,
threading the board through the probes. -/
def legalMovesAux (st : Strat) (c : Color) :
    List (Int × Int) → Board → List (Int × Int) → List (Int × Int) × Board
  | [], b, acc => (acc, b)
  | (x, y) :: rest, b, acc =>
    match checkValidMove st b x y c with
    | (true, _, b') => legalMovesAux st c rest b' (acc ++ [(x, y)])
    | (false, _, b') => legalMovesAux st c rest b' acc

/-- AIStrategy._get_legal_moves (also MCTSNode._get_legal_actions and the
rollout loop's inline scan): all cells the strategy accepts. -/
def legalMoves (st : Strat) (b : Board) (c : Color) : List (Int × Int) × Board :=
  legalMovesAux st c (cellList b.size) b []

/-- RandomStrategy.get_action; the uniform choice is modelled by an
externally supplied index, reduced modulo the number of legal moves. -/
def randomGetAction (st : Strat) (b : Board) (c : Color) (rng : Nat) :
    Option (Int × Int) × Board :=
  let res := legalMoves st b c
  let moves := res.1
  if moves = [] then (none, res.2)
  else (moves[rng % moves.length]?, res.2)

/-! ### Gomoku greedy strategy -/

/-- One arm of GomokuGreedyStrategy._get_pattern: walk up to the given
number of steps, counting contiguous same-color stones, and report
whether the run ended blocked (an enemy stone or the border) rather than
open (an empty cell or loop exhaustion). -/
def stepScan (b : Board) (c : Color) (dx dy : Int) : Nat → Int → Int → Nat × Bool
  | 0, _, _ => (0, false)
  | n + 1, x, y =>
    let nx := x + dx
    let ny := y + dy
    if b.InB nx ny then
      match b.grid nx ny with
      | some c' =>
        if c' = c then
          let res := stepScan b c dx dy n nx ny
          (res.1 + 1, res.2)
        else (0, true)
      | none => (0, false)
    else (0, true)

/-- The score table of GomokuGreedyStrategy, applied to a line count and
the two blocked flags exactly as _get_pattern classifies them. -/
def gomokuPatternScore (count : Nat) (bl0 bl1 : Bool) : Nat :=
  if 5 ≤ count then 100000
  else if count = 4 then (if bl0 = false ∧ bl1 = false then 10000 else 5000)
  else if count = 3 then (if bl0 = false ∧ bl1 = false then 1000 else 500)
  else if count = 2 then (if bl0 = false ∧ bl1 = false then 100 else 50)
  else 10

/-- The pattern score of one direction through (x, y). -/
def gomokuDirScore (b : Board) (x y dx dy : Int) (c : Color) : Nat :=
  let fwd := stepScan b c dx dy 4 x y
  let bwd := stepScan b c (-dx) (-dy) 4 x y
  gomokuPatternScore (1 + fwd.1 + bwd.1) fwd.2 bwd.2

/-- The four directions of GomokuGreedyStrategy._evaluate_position. -/
def gomokuEvalDirs : List (Int × Int) := [(1, 0), (0, 1), (1, 1), (1, -1)]

/-- GomokuGreedyStrategy._evaluate_position: place the stone, sum the
four directional pattern scores, then remove the stone again. -/
def gomokuEvalPos (b : Board) (x y : Int) (c : Color) : Nat × Board :=
  let b1 := (b.place_piece x y c).2
  let score := (gomokuEvalDirs.map fun d => gomokuDirScore b1 x y d.1 d.2 c).sum
  (score, (b1.remove_piece x y).2)

/-- The best-score fold of GomokuGreedyStrategy.get_action: attack score
plus 0.8 times the defense score (exact rationals stand in for the
source's floats, with None as the initial minus infinity), keeping the
list of best moves and threading the board through the evaluations. -/
def gomokuGreedyAux (c : Color) :
    List (Int × Int) → Board → Option ℚ → List (Int × Int) →
      Board × Option ℚ × List (Int × Int)
  | [], b, bs, bm => (b, bs, bm)
  | (x, y) :: rest, b, bs, bm =>
    let att := gomokuEvalPos b x y c
    let de := gomokuEvalPos att.2 x y c.opponent
    let score : ℚ := (att.1 : ℚ) + (de.1 : ℚ) * (4 / 5)
    match bs with
    | none => gomokuGreedyAux c rest de.2 (some score) [(x, y)]
    | some best =>
      if best < score then gomokuGreedyAux c rest de.2 (some score) [(x, y)]
      else if score = best then gomokuGreedyAux c rest de.2 (some best) (bm ++ [(x, y)])
      else gomokuGreedyAux c rest de.2 bs bm

/-- GomokuGreedyStrategy.get_action: evaluate every legal move and pick
among the ties uniformly (modelled by the supplied index). -/
def gomokuGreedyGetAction (st : Strat) (b : Board) (c : Color) (rng : Nat) :
    Option (Int × Int) × Board :=
  let res := legalMoves st b c
  let moves := res.1
  if moves = [] then (none, res.2)
  else
    let fold := gomokuGreedyAux c moves res.2 none []
    let bm := fold.2.2
    (bm[rng % bm.length]?, fold.1)

/-! ### Reversi greedy strategy -/

/-- The positional weight matrix of ReversiGreedyStrategy (row y, column x). -/
def revWeightMatrix : List (List Int) :=
  [[100, -20, 10, 5, 5, 10, -20, 100],
   [-20, -50, -2, -2, -2, -2, -50, -20],
   [10, -2, -1, -1, -1, -1, -2, 10],
   [5, -2, -1, -1, -1, -1, -2, 5],
   [5, -2, -1, -1, -1, -1, -2, 5],
   [10, -2, -1, -1, -1, -1, -2, 10],
   [-20, -50, -2, -2, -2, -2, -50, -20],
   [100, -20, 10, 5, 5, 10, -20, 100]]

/-- The positional term of ReversiGreedyStrategy._evaluate_position: the
matrix entry on an 8 by 8 board, otherwise the corner/edge fallback. -/
def revWeightAt (b : Board) (x y : Int) : Int :=
  if b.size = 8 then (revWeightMatrix.getD y.toNat []).getD x.toNat 0
  else if (x = 0 ∨ x = (b.size : Int) - 1) ∧ (y = 0 ∨ y = (b.size : Int) - 1) then 100
  else if x = 0 ∨ x = (b.size : Int) - 1 ∨ y = 0 ∨ y = (b.size : Int) - 1 then 10
  else 0

/-- ReversiGreedyStrategy._simulate_find_flippable: the AI's own copy of
the eight-ray flip scan (duplicated in the source to decouple the AI from
the rule strategy's private helper; the loop body is the same). -/
def aiSimFlippable (b : Board) (x y : Int) (c : Color) : List (Int × Int) :=
  revDirs.flatMap fun d => revScanDir b c x y d.1 d.2

/-- ReversiGreedyStrategy._evaluate_position: positional weight plus
twice the number of pieces the move would flip.  Reads the board only. -/
def revEvalPos (b : Board) (x y : Int) (c : Color) : Int :=
  revWeightAt b x y + (aiSimFlippable b x y c).length * 2

/-- The strict-maximum fold of ReversiGreedyStrategy.get_action (first
maximum wins, as only a strictly greater score replaces the best move). -/
def revGreedyAux (b : Board) (c : Color) :
    List (Int × Int) → Option (Int × (Int × Int)) → Option (Int × (Int × Int))
  | [], best => best
  | (x, y) :: rest, best =>
    let score := revEvalPos b x y c
    match best with
    | none => revGreedyAux b c rest (some (score, (x, y)))
    | some bv =>
      if bv.1 < score then revGreedyAux b c rest (some (score, (x, y)))
      else revGreedyAux b c rest (some bv)

/-- ReversiGreedyStrategy.get_action. -/
def revGreedyGetAction (st : Strat) (b : Board) (c : Color) :
    Option (Int × Int) × Board :=
  let res := legalMoves st b c
  let moves := res.1
  if moves = [] then (none, res.2)
  else ((revGreedyAux res.2 c moves none).map (·.2), res.2)

/-! ### MCTS -/

/-- An MCTS search-tree node: its own board copy, the color to move, the
action that created it, the untried actions, the children, and the visit
and outcome statistics (_results keyed 1, -1, 0). -/
inductive MTree where
  | node (board : Board) (color : Color) (parentAction : Option (Int × Int))
      (untried : List (Int × Int)) (children : List MTree)
      (visits wins losses draws : Nat)

/-- The node's board. -/
def MTree.board : MTree → Board
  | .node b _ _ _ _ _ _ _ _ => b

/-- The node's color to move. -/
def MTree.color : MTree → Color
  | .node _ c _ _ _ _ _ _ _ => c

/-- The action that created the node. -/
def MTree.parentAction : MTree → Option (Int × Int)
  | .node _ _ pa _ _ _ _ _ _ => pa

/-- The node's children. -/
def MTree.children : MTree → List MTree
  | .node _ _ _ _ ch _ _ _ _ => ch

/-- The node's untried actions. -/
def MTree.untried : MTree → List (Int × Int)
  | .node _ _ _ u _ _ _ _ _ => u

/-- MCTSNode.n: the visit count. -/
def MTree.n : MTree → Nat
  | .node _ _ _ _ _ v _ _ _ => v

/-- The win tally _results[1]. -/
def MTree.wins : MTree → Nat
  | .node _ _ _ _ _ _ w _ _ => w

/-- The loss tally _results[-1]. -/
def MTree.losses : MTree → Nat
  | .node _ _ _ _ _ _ _ l _ => l

/-- The draw tally _results[0]. -/
def MTree.draws : MTree → Nat
  | .node _ _ _ _ _ _ _ _ d => d

/-- MCTSNode.q: wins minus losses. -/
def MTree.q (t : MTree) : Int :=
  (t.wins : Int) - (t.losses : Int)

/-- Record one backpropagation step at a node: increment the visit count
and the tally keyed by the result. -/
def MTree.record : MTree → Int → MTree
  | .node b c pa u ch v w l d, r =>
    .node b c pa u ch (v + 1)
      (if r = 1 then w + 1 else w)
      (if r = -1 then l + 1 else l)
      (if r = 0 then d + 1 else d)

instance : Inhabited MTree :=
  ⟨.node ⟨0, fun _ _ => none⟩ Color.black none [] [] 0 0 0 0⟩

/-- The UCB1 weight best_child computes for a child: exploitation
q/n plus exploration c * sqrt(2 * ln(parent visits) / child visits),
with the source's floats idealized as reals. -/
noncomputable def ucbWeight (c : ℝ) (parentN : Nat) (t : MTree) : ℝ :=
  (t.q : ℝ) / (t.n : ℝ) + c * Real.sqrt (2 * Real.log (parentN : ℝ) / (t.n : ℝ))

/-- Modelled from the spec: the UCB1 weight as §4.4 words it, with
exploitation equal to wins divided by visits.  Stated only to be compared
against ucbWeight, the weight the code computes. -/
noncomputable def specUcbWeight (c : ℝ) (parentN : Nat) (t : MTree) : ℝ :=
  (t.wins : ℝ) / (t.n : ℝ) + c * Real.sqrt (2 * Real.log (parentN : ℝ) / (t.n : ℝ))

/-- np.argmax on a weight list: the index of the first maximum. -/
noncomputable def argmaxAux : List ℝ → Nat → Nat → ℝ → Nat
  | [], _, bi, _ => bi
  | v :: rest, i, bi, bv =>
    if bv < v then argmaxAux rest (i + 1) i v else argmaxAux rest (i + 1) bi bv

/-- np.argmax over a list of reals (0 on the empty list, where the
source would fail). -/
noncomputable def argmaxIdx : List ℝ → Nat
  | [] => 0
  | v :: rest => argmaxAux rest 1 0 v

/-- MCTSNode.best_child: the child at the argmax of the UCB1 weights. -/
noncomputable def bestChild (c : ℝ) (t : MTree) : MTree :=
  t.children.getD (argmaxIdx (t.children.map (ucbWeight c t.n))) default

/-- MCTSNode.rollout: play random legal moves on a disposable copy until
the strategy reports a winner (+1 if it is the rollout node's own color,
-1 otherwise) or no legal move remains (0).  The random choice at step i
is picks i modulo the number of moves; the fuel exceeds the number of
empty cells, so the loop's own exits are always reached. -/
def rolloutLoop (st : Strat) (selfColor : Color) (picks : Nat → Nat) :
    Nat → Nat → Board → Color → Int
  | 0, _, _, _ => 0
  | fuel + 1, step, b, cur =>
    match checkWinner st b none with
    | (true, w) => if w = some (Winner.ofColor selfColor) then 1 else -1
    | (false, _) =>
      let res := legalMoves st b cur
      let moves := res.1
      match moves[picks step % moves.length]? with
      | none => 0
      | some a =>
        rolloutLoop st selfColor picks fuel (step + 1)
          ((res.2.place_piece a.1 a.2 cur).2) cur.opponent

/-- One MCTS iteration (_tree_policy, rollout and backpropagation fused
functionally): a terminal node rolls out from itself; a not fully
expanded node expands its last untried action into a fresh child and
rolls out from it; otherwise descend into best_child(1.4).  The rollout
result, judged at the node it was rolled from, is recorded unchanged at
every node on the way back up. -/
noncomputable def mctsIterate (st : Strat) (picks : Nat → Nat) : MTree → MTree × Int
  | .node b c pa untried children v w l d =>
    if (checkWinner st b none).1 then
      let r := rolloutLoop st c picks (b.size * b.size + 1) 0 b c
      ((MTree.node b c pa untried children v w l d).record r, r)
    else
      match untried.getLast? with
      | some a =>
        let rest := untried.dropLast
        let placed := (b.place_piece a.1 a.2 c).2
        let nc := c.opponent
        let acts := legalMoves st placed nc
        let child : MTree := .node acts.2 nc (some a) acts.1 [] 0 0 0 0
        let r := rolloutLoop st nc picks (acts.2.size * acts.2.size + 1) 0 acts.2 nc
        ((MTree.node b c pa rest (children ++ [child.record r]) v w l d).record r, r)
      | none =>
        if h : argmaxIdx (children.map (ucbWeight 1.4 v)) < children.length then
          let res := mctsIterate st picks
            (children.get ⟨argmaxIdx (children.map (ucbWeight 1.4 v)), h⟩)
          ((MTree.node b c pa untried
              (children.set (argmaxIdx (children.map (ucbWeight 1.4 v))) res.1)
              v w l d).record res.2, res.2)
        else
          let r := rolloutLoop st c picks (b.size * b.size + 1) 0 b c
          ((MTree.node b c pa untried children v w l d).record r, r)
termination_by t => sizeOf t
decreasing_by
  simp_wf
  have h2 := List.sizeOf_lt_of_mem (List.get_mem _ _ h)
  simp only [List.get_eq_getElem] at h2
  omega

/-- The fixed-budget simulation loop of best_action. -/
noncomputable def mctsSearch (st : Strat) (picks : Nat → Nat) : Nat → MTree → MTree
  | 0, t => t
  | n + 1, t => mctsSearch st picks n (mctsIterate st picks t).1

/-- MCTSNode.best_action: run the simulations, then return the
parent_action of best_child with c_param = 0. -/
noncomputable def mctsBestAction (st : Strat) (picks : Nat → Nat) (sims : Nat)
    (t : MTree) : Option (Int × Int) :=
  (bestChild 0 (mctsSearch st picks sims t)).parentAction

/-- The MCTS get_action shared by the Gomoku and Reversi MCTS strategies:
no legal move yields None, a single legal move is returned at once, and
otherwise the search runs on a root node owning its own board copy. -/
noncomputable def mctsGetAction (st : Strat) (b : Board) (c : Color)
    (picks : Nat → Nat) (sims : Nat) : Option (Int × Int) × Board :=
  let res := legalMoves st b c
  let moves := res.1
  if moves = [] then (none, res.2)
  else if moves.length = 1 then (moves[0]?, res.2)
  else
    let racts := legalMoves st res.2 c
    let root : MTree := .node racts.2 c none racts.1 [] 0 0 0 0
    (mctsBestAction st picks sims root, res.2)

/-- The visit and outcome statistics of one node, for stating
backpropagation along a parent chain. -/
structure MStats where
  visits : Nat
  wins : Nat
  losses : Nat
  draws : Nat
deriving DecidableEq, Repr

/-- One backpropagation update: visits plus one, and the tally keyed by
the result plus one. -/
def recordResult (r : Int) (s : MStats) : MStats :=
  { visits := s.visits + 1
    wins := if r = 1 then s.wins + 1 else s.wins
    losses := if r = -1 then s.losses + 1 else s.losses
    draws := if r = 0 then s.draws + 1 else s.draws }

/-- MCTSNode.backpropagate along the chain from a node to the root: each
node records the same result and recurses into its parent. -/
def backpropagate (r : Int) : List MStats → List MStats
  | [] => []
  | s :: rest => recordResult r s :: backpropagate r rest

/-- Modelled from the spec: the rollout outcome judged relative to a
given node's own color, as §4.4's backpropagation step words it.  Stated
only to be compared with what backpropagate records. -/
def specOutcome (c : Color) (w : Option Winner) : Int :=
  if w = some (Winner.ofColor c) then 1
  else if w = some Winner.draw then 0
  else -1

/-! ## Specification-side predicates and concrete test positions -/

/-- A bracketed line for Reversi: k opposing pieces in a straight run
from the anchor, terminated by one of the mover's own pieces. -/
def BracketRun (b : Board) (x y : Int) (c : Color) (dx dy : Int) (k : Nat) : Prop :=
  1 ≤ k ∧
    (∀ i : Nat, 1 ≤ i → i ≤ k →
      b.get_piece (x + (i : Int) * dx) (y + (i : Int) * dy) = some c.opponent) ∧
    b.get_piece (x + ((k : Int) + 1) * dx) (y + ((k : Int) + 1) * dy) = some c

/-- The cells of a bracketed ray: the k positions one through k steps
away from the anchor along a direction. -/
def rayCells (x y dx dy : Int) (k : Nat) : List (Int × Int) :=
  (List.range k).map fun (i : Nat) => (x + ((i : Int) + 1) * dx, y + ((i : Int) + 1) * dy)

/-- The stone-count verdict Go's check_winner announces once it decides:
the color with more stones, draw on a tie. -/
def goStoneWinner (b : Board) : Winner :=
  if whiteCount b < blackCount b then Winner.black
  else if blackCount b < whiteCount b then Winner.white
  else Winner.draw

/-- A one-cell board already holding a black stone (move rejection test). -/
def occupiedBoard1 : Board :=
  ⟨1, fun x y => if x = 0 ∧ y = 0 then some Color.black else none⟩

/-- A GameLogic state over that board, black to move. -/
def occupiedState1 : LState :=
  { board := occupiedBoard1, gs := {} }

/-- A 2 by 2 Go position: black stones at (1,0) and (0,1); the corner
(0,0) is a suicide point for white. -/
def goSuicideBoard : Board :=
  ⟨2, fun x y => if (x = 1 ∧ y = 0) ∨ (x = 0 ∧ y = 1) then some Color.black else none⟩

/-- A 2 by 2 Go position: a white stone at (0,0) surrounded by black at
(1,0) and (0,1) (a captured group). -/
def goCaptureBoard : Board :=
  ⟨2, fun x y =>
    if x = 0 ∧ y = 0 then some Color.white
    else if (x = 1 ∧ y = 0) ∨ (x = 0 ∧ y = 1) then some Color.black
    else none⟩

/-- A 4 by 4 Reversi position with a white stone at (1,0) bracketed
between the empty corner (0,0) and a black stone at (2,0). -/
def revBracketBoard : Board :=
  ⟨4, fun x y =>
    if y = 0 ∧ x = 1 then some Color.white
    else if y = 0 ∧ x = 2 then some Color.black
    else none⟩

/-- A 5 by 5 Gomoku board whose first row is five black stones. -/
def gomokuRowBoard : Board :=
  ⟨5, fun x y => if y = 0 ∧ 0 ≤ x ∧ x < 5 then some Color.black else none⟩

/-- A search-tree leaf with one visit and one recorded loss. -/
def lossNode : MTree :=
  .node ⟨0, fun _ _ => none⟩ Color.black (some (0, 0)) [] [] 1 0 1 0

/-- A root whose only child is that losing leaf. -/
def lossRoot : MTree :=
  .node ⟨0, fun _ _ => none⟩ Color.white none [] [lossNode] 1 0 0 0

/-- A one-cell board holding a single white stone: Reversi's check_winner
reports white as the winner on it at once. -/
def whiteWonBoard : Board :=
  ⟨1, fun x y => if x = 0 ∧ y = 0 then some Color.white else none⟩

/-- A full two-by-two board with two stones of each color: Reversi's
check_winner reports a draw on it. -/
def drawBoard : Board :=
  ⟨2, fun x y =>
    if y = 0 ∧ (x = 0 ∨ x = 1) then some Color.black
    else if y = 1 ∧ (x = 0 ∨ x = 1) then some Color.white
    else none⟩

/-- A node statistics record with all tallies at zero. -/
def zeroStats : MStats := ⟨0, 0, 0, 0⟩

/-- The constant index stream used where a random choice is modelled. -/
def pickZero : Nat → Nat := fun _ => 0

/-- A Go state one pass away from the double-pass game end, with a board
holding a single black stone. -/
def goPassState : LState :=
  { board := ⟨2, fun x y => if x = 0 ∧ y = 0 then some Color.black else none⟩,
    gs := { current_player_color := Color.white, pass_count := 1 } }

/-- A 10 by 10 board whose first nine rows are black: exactly 90 percent
full, with ten empty cells. -/
def ninetyBoard : Board :=
  ⟨10, fun x y => if 0 ≤ x ∧ x < 10 ∧ 0 ≤ y ∧ y < 9 then some Color.black else none⟩

/-- One mutation of the Board interface. -/
inductive BoardOp where
  | placeOp (x y : Int) (c : Color)
  | removeOp (x y : Int)
  | clearOp
deriving DecidableEq, Repr

/-- Apply one mutation to a board. -/
def BoardOp.apply : BoardOp → Board → Board
  | .placeOp x y c, b => (b.place_piece x y c).2
  | .removeOp x y, b => (b.remove_piece x y).2
  | .clearOp, b => b.clear

/-- Apply a tagged mutation to a pair of independently owned boards: the
tag selects the targeted board.  That a mutation of one board never
reaches the other reflects Board.clone in the source: it allocates a
brand-new grid, sharing with the original only the immutable flyweight
piece objects. -/
def applyTagged (p : Board × Board) (op : BoardOp × Bool) : Board × Board :=
  if op.2 then (p.1, op.1.apply p.2) else (op.1.apply p.1, p.2)

/-- Apply a sequence of tagged mutations to a board pair. -/
def applyAll (l : List (BoardOp × Bool)) (p : Board × Board) : Board × Board :=
  l.foldl applyTagged p

/-! ## Basic board lemmas -/

theorem Board.ext_cells : ∀ (b b' : Board), b'.size = b.size →
    (∀ x y, b'.grid x y = b.grid x y) → b' = b
  | ⟨s, g⟩, ⟨s', g'⟩, hs, hg => by
    have hsz : s' = s := hs
    have hgrid : g' = g := funext fun x => funext fun y => hg x y
    cases hsz
    cases hgrid
    rfl

theorem Board.place_size (b : Board) (x y : Int) (c : Color) :
    (b.place_piece x y c).2.size = b.size := by
  unfold Board.place_piece
  split <;> rfl

theorem Board.remove_size (b : Board) (x y : Int) :
    (b.remove_piece x y).2.size = b.size := by
  unfold Board.remove_piece
  split <;> rfl

theorem Board.clone_size (b : Board) : b.clone.size = b.size := rfl

theorem Board.clone_get (b : Board) (x y : Int) :
    b.clone.get_piece x y = b.get_piece x y := by
  unfold Board.clone Board.get_piece Board.InB
  split <;> simp_all

/-- Placing on an in-bounds empty cell and removing there again restores
the board exactly. -/
theorem place_remove_cancel (b : Board) (x y : Int) (c : Color)
    (hin : b.InB x y) (hemp : b.grid x y = none) :
    ((b.place_piece x y c).2.remove_piece x y).2 = b := by
  unfold Board.place_piece
  rw [if_pos ⟨hin, hemp⟩]
  unfold Board.remove_piece
  have hset : setCell b.grid x y (some c) x y = some c := by
    unfold setCell
    rw [if_pos ⟨rfl, rfl⟩]
  rw [if_pos ⟨hin, by simp [hset]⟩]
  apply Board.ext_cells
  · rfl
  · intro a b'
    show setCell (setCell b.grid x y (some c)) x y none a b' = b.grid a b'
    unfold setCell
    by_cases hab : a = x ∧ b' = y
    · obtain ⟨ha, hb⟩ := hab
      subst ha hb
      simp [hemp]
    · simp [hab]

/-- In-bounds emptiness restated on the raw grid. -/
theorem grid_none_of_empty (b : Board) (x y : Int) (hin : b.InB x y)
    (hemp : b.get_piece x y = none) : b.grid x y = none := by
  unfold Board.get_piece at hemp
  rwa [if_pos hin] at hemp

/-- check_valid_move hands back the very board it was given: Gomoku and
Reversi never write to it, and Go's trial stone is removed again. -/
theorem checkValidMove_board_eq (st : Strat) (b : Board) (x y : Int) (c : Color) :
    (checkValidMove st b x y c).2.2 = b := by
  cases st
  · show (gomokuCheckValid b x y c).2.2 = b
    unfold gomokuCheckValid
    split_ifs <;> rfl
  · show (goCheckValid b x y c).2.2 = b
    simp only [goCheckValid]
    split_ifs with h1 h2
    all_goals first
      | rfl
      | exact place_remove_cancel b x y c h1 (grid_none_of_empty b x y h1 h2)
  · show (revCheckValid b x y c).2.2 = b
    unfold revCheckValid
    split_ifs <;> rfl

/-- A cell check_valid_move accepts is in bounds and empty, for every
variant. -/
theorem checkValidMove_true_cases (st : Strat) (b : Board) (x y : Int) (c : Color)
    (h : (checkValidMove st b x y c).1 = true) :
    b.InB x y ∧ b.get_piece x y = none := by
  cases st
  · rw [show checkValidMove Strat.gomoku b x y c = gomokuCheckValid b x y c from rfl] at h
    unfold gomokuCheckValid at h
    split_ifs at h with h1 h2
    exact ⟨h1, h2⟩
  · rw [show checkValidMove Strat.go b x y c = goCheckValid b x y c from rfl] at h
    simp only [goCheckValid] at h
    split_ifs at h with h1 h2
    all_goals exact ⟨h1, h2⟩
  · rw [show checkValidMove Strat.reversi b x y c = revCheckValid b x y c from rfl] at h
    unfold revCheckValid at h
    split_ifs at h with h1 h2 h3
    exact ⟨h1, h2⟩

/-! ## Legal-move enumeration lemmas -/

/-- The legal-move probe loop hands back the board it was given. -/
theorem legalMovesAux_board_eq (st : Strat) (c : Color) :
    ∀ (l : List (Int × Int)) (b : Board) (acc : List (Int × Int)),
      (legalMovesAux st c l b acc).2 = b := by
  intro l
  induction l with
  | nil => intro b acc; rfl
  | cons p rest ih =>
    intro b acc
    obtain ⟨x, y⟩ := p
    rcases hcv : checkValidMove st b x y c with ⟨valid, msg, b'⟩
    have hb : b' = b := by
      have h := checkValidMove_board_eq st b x y c
      rw [hcv] at h
      exact h
    subst hb
    cases valid <;> simp [legalMovesAux, hcv, ih]

/-- _get_legal_moves returns the board unchanged. -/
theorem legalMoves_board_eq (st : Strat) (b : Board) (c : Color) :
    (legalMoves st b c).2 = b :=
  legalMovesAux_board_eq st c (cellList b.size) b []

/-- Every enumerated legal move names an in-bounds empty cell of the
board the enumeration started from. -/
theorem legalMovesAux_mem (st : Strat) (c : Color) :
    ∀ (l : List (Int × Int)) (b : Board) (acc : List (Int × Int)) (m : Int × Int),
      m ∈ (legalMovesAux st c l b acc).1 →
      m ∈ acc ∨ (b.InB m.1 m.2 ∧ b.get_piece m.1 m.2 = none) := by
  intro l
  induction l with
  | nil => intro b acc m hm; exact Or.inl hm
  | cons p rest ih =>
    intro b acc m hm
    obtain ⟨x, y⟩ := p
    rcases hcv : checkValidMove st b x y c with ⟨valid, msg, b2⟩
    have hb : b2 = b := by
      have h := checkValidMove_board_eq st b x y c
      rw [hcv] at h
      exact h
    rw [hb] at hcv
    cases valid
    · simp only [legalMovesAux, hcv] at hm
      exact ih b acc m hm
    · simp only [legalMovesAux, hcv] at hm
      have hval : (checkValidMove st b x y c).1 = true := by rw [hcv]
      have hprops := checkValidMove_true_cases st b x y c hval
      rcases ih b (acc ++ [(x, y)]) m hm with hin | hp
      · rcases List.mem_append.mp hin with hl | hr
        · exact Or.inl hl
        · have hmx : m = (x, y) := List.mem_singleton.mp hr
          subst hmx
          exact Or.inr hprops
      · exact Or.inr hp

theorem legalMoves_mem (st : Strat) (b : Board) (c : Color) (m : Int × Int)
    (hm : m ∈ (legalMoves st b c).1) :
    b.InB m.1 m.2 ∧ b.get_piece m.1 m.2 = none := by
  rcases legalMovesAux_mem st c (cellList b.size) b [] m hm with h | h
  · cases h
  · exact h

/-! ## GameLogic lemmas -/

/-- A Reversi pass taken with the skip flag cached and the game not over
always succeeds: can_pass consults the cache and handle_pass never
fails. -/
theorem passMove_reversi_success (s : LState) (hngo : s.gs.game_over = false)
    (hc : s.cache = true) : (passMove Strat.reversi s).1 = true := by
  unfold passMove
  rw [hngo, hc]
  simp only [stratCanPass, stratHandlePass, revHandlePass, if_true,
    Bool.false_eq_true, if_false]
  split_ifs <;> simp [hngo]

/-- Claim C1: whenever make_move rejects, the authoritative board's
cells are all unchanged: the game-over check and the static legality
check write nothing (Go's trial stone is restored), and a failed
placement or post-processing happens on the discarded clone only. -/
theorem makeMove_rejected_board_unchanged (st : Strat) (s : LState) (x y : Int)
    (m : String) (s' : LState) (h : makeMove st s x y = (false, m, s')) :
    ∀ a b, s'.board.get_piece a b = s.board.get_piece a b := by
  simp only [makeMove] at h
  split at h
  · -- game already over
    simp only [Prod.mk.injEq] at h
    obtain ⟨-, -, h3⟩ := h
    subst h3
    intro a b
    rfl
  · rename_i hgo
    split at h
    case h_1 msg b1 heq =>
      -- static legality failed
      have hb1 : b1 = s.board := by
        have hb := checkValidMove_board_eq st s.board x y s.gs.current_player_color
        rw [heq] at hb
        exact hb
      simp only [Prod.mk.injEq] at h
      obtain ⟨-, -, h3⟩ := h
      subst h3
      intro a b
      rw [hb1]
    case h_2 msg b1 heq =>
      have hb1 : b1 = s.board := by
        have hb := checkValidMove_board_eq st s.board x y s.gs.current_player_color
        rw [heq] at hb
        exact hb
      split at h
      · -- placement on the clone failed
        simp only [Prod.mk.injEq] at h
        obtain ⟨-, -, h3⟩ := h
        subst h3
        intro a b
        rw [hb1]
      · rename_i cloned1 hplace
        split at h
        case h_1 pm cl2 gsF hpost =>
          -- post-move processing on the clone failed
          simp only [Prod.mk.injEq] at h
          obtain ⟨-, -, h3⟩ := h
          subst h3
          intro a b
          rw [hb1]
        case h_2 pm cl2 gs1 hpost =>
          split at h
          · -- a winner: make_move succeeds, contradiction
            simp only [Prod.mk.injEq] at h
            exact absurd h.1 (by simp)
          · split at h
            case h_1 bT cache' hturn =>
              -- on_turn_start requested a skip: only Reversi can, and
              -- the resulting automatic pass always succeeds
              cases st
              · simp only [onTurnStart, Prod.mk.injEq] at hturn
                exact absurd hturn.1 (by simp)
              · simp only [onTurnStart, Prod.mk.injEq] at hturn
                exact absurd hturn.1 (by simp)
              · simp only [onTurnStart, revOnTurnStart, Prod.mk.injEq] at hturn
                obtain ⟨hskip, hbT, hcache⟩ := hturn
                have hgs1 : gs1 = s.gs := by
                  simp only [postMove, revPostMove, Prod.mk.injEq] at hpost
                  exact hpost.2.2.2.symm
                simp only [Bool.not_eq_true] at hgo
                have hfst := congrArg (fun r : Bool × String × LState => r.1) h
                simp only at hfst
                rw [passMove_reversi_success _ ?_ ?_] at hfst
                · exact absurd hfst (by simp)
                · simp [updateGameState, hgs1, hgo]
                · show cache' = true
                  rw [← hcache]
                  exact hskip
            case h_2 bT cache' hturn =>
              -- ordinary success, contradiction
              simp only [Prod.mk.injEq] at h
              exact absurd h.1 (by simp)

/-- Witness for C1 at a concrete input: on a one-cell board already
holding a stone, make_move is rejected and the cell is untouched. -/
theorem makeMove_rejected_board_unchanged_witness :
    makeMove Strat.gomoku occupiedState1 0 0 =
      (false, "该位置已有棋子", occupiedState1) ∧
    ∀ a b, occupiedState1.board.get_piece a b = occupiedState1.board.get_piece a b := by
  refine ⟨rfl, ?_⟩
  exact makeMove_rejected_board_unchanged Strat.gomoku occupiedState1 0 0
    "该位置已有棋子" occupiedState1 rfl

/-- Claim C8: for every variant, check_valid_move leaves the board it is
given unchanged cell for cell; in particular Go's temporary trial
placement is always undone. -/
theorem checkValidMove_frame (st : Strat) (b : Board) (x y : Int) (c : Color) :
    ∀ p q, (checkValidMove st b x y c).2.2.get_piece p q = b.get_piece p q := by
  intro p q
  rw [checkValidMove_board_eq]

/-- Mutations tagged for the first board never change the second. -/
theorem applyAll_fst (l : List (BoardOp × Bool)) :
    ∀ p : Board × Board, (∀ op ∈ l, op.2 = true) → (applyAll l p).1 = p.1 := by
  induction l with
  | nil => intro p _; rfl
  | cons op rest ih =>
    intro p h
    have hop : op.2 = true := h op (List.mem_cons_self _ _)
    have hstep : applyTagged p op = (p.1, op.1.apply p.2) := by
      unfold applyTagged
      rw [hop]
      simp
    show (applyAll rest (applyTagged p op)).1 = p.1
    rw [ih _ fun o ho => h o (List.mem_cons_of_mem _ ho), hstep]

/-- Mutations tagged for the second board never change the first. -/
theorem applyAll_snd (l : List (BoardOp × Bool)) :
    ∀ p : Board × Board, (∀ op ∈ l, op.2 = false) → (applyAll l p).2 = p.2 := by
  induction l with
  | nil => intro p _; rfl
  | cons op rest ih =>
    intro p h
    have hop : op.2 = false := h op (List.mem_cons_self _ _)
    have hstep : applyTagged p op = (op.1.apply p.1, p.2) := by
      unfold applyTagged
      rw [hop]
      simp
    show (applyAll rest (applyTagged p op)).2 = p.2
    rw [ih _ fun o ho => h o (List.mem_cons_of_mem _ ho), hstep]

/-- Claim C9: Board.clone yields a board of the same size agreeing with
the original on every cell at clone time, and subsequent place, remove
or clear mutations applied to either board leave the other one's
contents exactly as they were. -/
theorem clone_spec (b : Board) :
    b.clone.size = b.size ∧
    (∀ x y, b.clone.get_piece x y = b.get_piece x y) ∧
    (∀ l : List (BoardOp × Bool), (∀ op ∈ l, op.2 = true) →
      (applyAll l (b, b.clone)).1 = b ∧
      ∀ x y, (applyAll l (b, b.clone)).1.get_piece x y = b.get_piece x y) ∧
    (∀ l : List (BoardOp × Bool), (∀ op ∈ l, op.2 = false) →
      (applyAll l (b, b.clone)).2 = b.clone ∧
      ∀ x y, (applyAll l (b, b.clone)).2.get_piece x y = b.get_piece x y) := by
  refine ⟨rfl, Board.clone_get b, ?_, ?_⟩
  · intro l h
    have h1 := applyAll_fst l (b, b.clone) h
    exact ⟨h1, fun x y => by rw [h1]⟩
  · intro l h
    have h1 := applyAll_snd l (b, b.clone) h
    exact ⟨h1, fun x y => by rw [h1, Board.clone_get]⟩

/-- Witness for C9 at a concrete input: a place on the clone of the
one-cell board leaves the original untouched. -/
theorem clone_spec_witness :
    (∀ op ∈ ([(BoardOp.placeOp 0 0 Color.white, true)] : List (BoardOp × Bool)),
      op.2 = true) ∧
    (applyAll [(BoardOp.placeOp 0 0 Color.white, true)]
      (occupiedBoard1, occupiedBoard1.clone)).1 = occupiedBoard1 :=
  ⟨by decide, ((clone_spec occupiedBoard1).2.2.1 _ (by decide)).1⟩

/-! ## Gomoku win detection (C4) -/

/-- If the first m steps along a direction all hold the scanned color,
the directional arm counts at least m (for m within the scan's reach). -/
theorem countConsec_ge (b : Board) (c : Color) (dx dy : Int) :
    ∀ (m fuel : Nat) (x y : Int), m ≤ fuel →
      (∀ k : Nat, 1 ≤ k → k ≤ m →
        b.get_piece (x + (k : Int) * dx) (y + (k : Int) * dy) = some c) →
      m ≤ countConsec b c x y dx dy fuel := by
  intro m
  induction m with
  | zero => intro fuel x y _ _; exact Nat.zero_le _
  | succ m ih =>
    intro fuel x y hfuel h
    cases fuel with
    | zero => omega
    | succ n =>
      have h1 : b.get_piece (x + dx) (y + dy) = some c := by
        have := h 1 le_rfl (by omega)
        simpa using this
      have hrest : ∀ k : Nat, 1 ≤ k → k ≤ m →
          b.get_piece ((x + dx) + (k : Int) * dx) ((y + dy) + (k : Int) * dy) = some c := by
        intro k hk1 hkm
        have h2 := h (k + 1) (by omega) (by omega)
        have e1 : x + ((k + 1 : Nat) : Int) * dx = (x + dx) + (k : Int) * dx := by
          push_cast
          ring
        have e2 : y + ((k + 1 : Nat) : Int) * dy = (y + dy) + (k : Int) * dy := by
          push_cast
          ring
        rw [e1, e2] at h2
        exact h2
      have hih := ih n (x + dx) (y + dy) (by omega) hrest
      simp only [countConsec, h1, if_true]
      omega

/-- The direction scan announces a win for the stone's color as soon as
any direction in the list reaches a count of five. -/
theorem gomokuScanDirs_of_five (b : Board) (c : Color) (x y : Int) :
    ∀ dirs : List (Int × Int), ∀ d ∈ dirs, 5 ≤ gomokuLineCount b c x y d.1 d.2 →
      gomokuScanDirs b c x y dirs = (true, some (Winner.ofColor c)) := by
  intro dirs
  induction dirs with
  | nil => intro d hd; cases hd
  | cons d0 rest ih =>
    intro d hd hcount
    obtain ⟨dx0, dy0⟩ := d0
    by_cases h0 : 5 ≤ gomokuLineCount b c x y dx0 dy0
    · simp [gomokuScanDirs, h0]
    · rcases List.mem_cons.mp hd with rfl | hmem
      · exact absurd hcount h0
      · simp only [gomokuScanDirs, if_neg h0]
        exact ih d hmem hcount

/-- Claim C4: a board holding an unbroken line of five same-colored
stones in one of the four scanned orientations is reported as a win for
that color by check_winner from any stone of the line. -/
theorem gomoku_five_line_win (b : Board) (sx sy dx dy : Int) (c : Color) (j : Nat)
    (hd : (dx, dy) ∈ gomokuDirs)
    (hrun : ∀ i : Nat, i < 5 →
      b.get_piece (sx + (i : Int) * dx) (sy + (i : Int) * dy) = some c)
    (hj : j < 5) :
    gomokuCheckWinner b (some (sx + (j : Int) * dx, sy + (j : Int) * dy)) =
      (true, some (Winner.ofColor c)) := by
  set x := sx + (j : Int) * dx with hx
  set y := sy + (j : Int) * dy with hy
  have hstone : b.get_piece x y = some c := hrun j hj
  have hfwd : 4 - j ≤ countConsec b c x y dx dy 4 := by
    apply countConsec_ge b c dx dy (4 - j) 4 x y (by omega)
    intro k hk1 hkm
    have := hrun (j + k) (by omega)
    have e1 : sx + ((j + k : Nat) : Int) * dx = x + (k : Int) * dx := by
      rw [hx]
      push_cast
      ring
    have e2 : sy + ((j + k : Nat) : Int) * dy = y + (k : Int) * dy := by
      rw [hy]
      push_cast
      ring
    rw [e1, e2] at this
    exact this
  have hbwd : j ≤ countConsec b c x y (-dx) (-dy) 4 := by
    apply countConsec_ge b c (-dx) (-dy) j 4 x y (by omega)
    intro k hk1 hkm
    have := hrun (j - k) (by omega)
    have e1 : sx + ((j - k : Nat) : Int) * dx = x + (k : Int) * (-dx) := by
      rw [hx]
      have : ((j - k : Nat) : Int) = (j : Int) - (k : Int) := by
        push_cast [Nat.cast_sub hkm]
        ring
      rw [this]
      ring
    have e2 : sy + ((j - k : Nat) : Int) * dy = y + (k : Int) * (-dy) := by
      rw [hy]
      have : ((j - k : Nat) : Int) = (j : Int) - (k : Int) := by
        push_cast [Nat.cast_sub hkm]
        ring
      rw [this]
      ring
    rw [e1, e2] at this
    exact this
  have hcount : 5 ≤ gomokuLineCount b c x y dx dy := by
    unfold gomokuLineCount
    omega
  show (match b.get_piece x y with
        | none => ((false, none) : Bool × Option Winner)
        | some c0 => gomokuScanDirs b c0 x y gomokuDirs) = (true, some (Winner.ofColor c))
  rw [hstone]
  exact gomokuScanDirs_of_five b c x y gomokuDirs (dx, dy) hd hcount

/-- Witness for C4 at a concrete input: a full black first row on a five
by five board is a win from its middle stone. -/
theorem gomoku_five_line_win_witness :
    (1, 0) ∈ gomokuDirs ∧
    (∀ i : Nat, i < 5 →
      gomokuRowBoard.get_piece (0 + (i : Int) * 1) (0 + (i : Int) * 0) = some Color.black) ∧
    gomokuCheckWinner gomokuRowBoard (some (0 + (2 : Nat) * 1, 0 + (2 : Nat) * 0)) =
      (true, some (Winner.ofColor Color.black)) := by
  refine ⟨by decide, by decide, ?_⟩
  exact gomoku_five_line_win gomokuRowBoard 0 0 1 0 Color.black 2
    (by decide) (by decide) (by decide)

/-! ## Go captures and suicide (C2) -/

/-- A cell holding a piece is in bounds. -/
theorem get_some_inB {b : Board} {x y : Int} {c : Color}
    (h : b.get_piece x y = some c) : b.InB x y := by
  unfold Board.get_piece at h
  by_cases hin : b.InB x y
  · exact hin
  · rw [if_neg hin] at h
    cases h

/-- After remove_piece the targeted cell reads empty (it was either
cleared, already empty, or out of bounds). -/
theorem Board.remove_get_self (b : Board) (u v : Int) :
    (b.remove_piece u v).2.get_piece u v = none := by
  unfold Board.remove_piece
  split_ifs with h
  · show (if b.InB u v then setCell b.grid u v none u v else none) = none
    split_ifs with h2
    · unfold setCell
      rw [if_pos ⟨rfl, rfl⟩]
    · rfl
  · show b.get_piece u v = none
    unfold Board.get_piece
    split_ifs with h2
    · by_contra hne
      exact h ⟨h2, hne⟩
    · rfl

/-- remove_piece changes no other cell. -/
theorem Board.remove_get_other (b : Board) (u v p q : Int) (hne : ¬(p = u ∧ q = v)) :
    (b.remove_piece u v).2.get_piece p q = b.get_piece p q := by
  unfold Board.remove_piece
  split_ifs with h
  · show (if b.InB p q then setCell b.grid u v none p q else none) = b.get_piece p q
    unfold setCell
    rw [if_neg hne]
    rfl
  · rfl

/-- Removing a list of cells empties exactly those cells. -/
theorem removeList_get : ∀ (L : List (Int × Int)) (b : Board) (p q : Int),
    (removeList b L).get_piece p q = if (p, q) ∈ L then none else b.get_piece p q := by
  intro L
  induction L with
  | nil => intro b p q; simp [removeList]
  | cons a rest ih =>
    intro b p q
    obtain ⟨u, v⟩ := a
    show (removeList (b.remove_piece u v).2 rest).get_piece p q = _
    rw [ih]
    by_cases hmem : (p, q) ∈ rest
    · rw [if_pos hmem, if_pos (List.mem_cons_of_mem _ hmem)]
    · rw [if_neg hmem]
      by_cases heq : (p, q) = (u, v)
      · rw [if_pos (by rw [heq]; exact List.mem_cons_self _ _)]
        have hp : p = u := congrArg Prod.fst heq
        have hq : q = v := congrArg Prod.snd heq
        subst hp hq
        exact Board.remove_get_self b p q
      · rw [if_neg (by
          intro hc
          rcases List.mem_cons.mp hc with h1 | h1
          · exact heq h1
          · exact hmem h1)]
        refine Board.remove_get_other b u v p q ?_
        intro ⟨h1, h2⟩
        exact heq (by rw [h1, h2])

/-- Membership in the full-board scan list. -/
theorem cellList_mem (n : Nat) (p q : Int) :
    (p, q) ∈ cellList n ↔ 0 ≤ p ∧ p < (n : Int) ∧ 0 ≤ q ∧ q < (n : Int) := by
  constructor
  · intro h
    rcases List.mem_flatMap.mp h with ⟨yn, hyn, hx⟩
    rcases List.mem_map.mp hx with ⟨xn, hxn, heq⟩
    rw [List.mem_range] at hyn hxn
    have h1 : (xn : Int) = p := congrArg Prod.fst heq
    have h2 : (yn : Int) = q := congrArg Prod.snd heq
    subst h1 h2
    refine ⟨by omega, by omega, by omega, by omega⟩
  · intro ⟨h1, h2, h3, h4⟩
    have hq : q.toNat < n := by omega
    have hp : p.toNat < n := by omega
    refine List.mem_flatMap.mpr ⟨q.toNat, List.mem_range.mpr hq, ?_⟩
    refine List.mem_map.mpr ⟨p.toNat, List.mem_range.mpr hp, ?_⟩
    rw [Int.toNat_of_nonneg h1, Int.toNat_of_nonneg h3]

/-- The cells remove_dead_stones collects are exactly the enemy stones
whose flood fill finds no liberty. -/
theorem goDeadList_mem (b : Board) (pc : Color) (p q : Int) :
    (p, q) ∈ goDeadList b pc ↔
      (b.get_piece p q ≠ none ∧ b.get_piece p q ≠ some pc) ∧
        goHasLib b p q = false := by
  unfold goDeadList
  rw [List.mem_filter]
  constructor
  · intro ⟨hcell, hpred⟩
    have hpred2 : (match b.get_piece p q with
        | some c => decide (c ≠ pc) && ! goHasLib b p q
        | none => false) = true := hpred
    rcases hg : b.get_piece p q with _ | c'
    · rw [hg] at hpred2
      cases hpred2
    · rw [hg] at hpred2
      simp only [Bool.and_eq_true, decide_eq_true_eq, Bool.not_eq_true'] at hpred2
      refine ⟨⟨?_, ?_⟩, hpred2.2⟩
      · exact fun hc => Option.noConfusion hc
      · exact fun hc => hpred2.1 (Option.some.inj hc)
  · intro ⟨⟨hnn, hnpc⟩, hlib⟩
    refine ⟨?_, ?_⟩
    · rcases hg : b.get_piece p q with _ | c'
      · exact absurd hg hnn
      · obtain ⟨h0p, hps, h0q, hqs⟩ := get_some_inB hg
        exact (cellList_mem b.size p q).mpr ⟨h0p, hps, h0q, hqs⟩
    · show (match b.get_piece p q with
          | some c => decide (c ≠ pc) && ! goHasLib b p q
          | none => false) = true
      rcases hg : b.get_piece p q with _ | c'
      · exact absurd hg hnn
      · show (decide (c' ≠ pc) && ! goHasLib b p q) = true
        simp only [Bool.and_eq_true, decide_eq_true_eq, Bool.not_eq_true']
        exact ⟨fun hceq => hnpc (by rw [hg, hceq]), hlib⟩

/-- remove_dead_stones, cell for cell: an enemy stone without liberties
(judged on the board before any removal) becomes empty; every other cell
is untouched. -/
theorem goRemoveDeadStones_get (b : Board) (pc : Color) (p q : Int) :
    (goRemoveDeadStones b pc).2.get_piece p q =
      if (b.get_piece p q ≠ none ∧ b.get_piece p q ≠ some pc) ∧
          goHasLib b p q = false then none
      else b.get_piece p q := by
  show (removeList b (goDeadList b pc)).get_piece p q = _
  rw [removeList_get]
  by_cases hmem : (p, q) ∈ goDeadList b pc
  · rw [if_pos hmem, if_pos ((goDeadList_mem b pc p q).mp hmem)]
  · rw [if_neg hmem, if_neg (fun hc => hmem ((goDeadList_mem b pc p q).mpr hc))]

/-- Claim C2: Go's post-move processing removes every enemy group left
without liberties before the mover's own group is checked (the suicide
verdict is taken on the enemy-cleared board), and check_valid_move
rejects a placement whose trial stone has no liberties while no adjacent
enemy group is left libertyless. -/
theorem go_capture_and_suicide (b : Board) (x y : Int) (c : Color) (gs : GState) :
    ((goPostMove b x y c gs).1 = goHasLib (goRemoveDeadStones b c).2 x y) ∧
    (∀ p q, (goRemoveDeadStones b c).2.get_piece p q =
      if (b.get_piece p q ≠ none ∧ b.get_piece p q ≠ some c) ∧
          goHasLib b p q = false then none
      else b.get_piece p q) ∧
    (b.InB x y → b.get_piece x y = none →
      goHasLib (b.place_piece x y c).2 x y = false →
      (∀ d ∈ goNeighborDirs,
        (b.place_piece x y c).2.get_piece (x + d.1) (y + d.2) = some c.opponent →
        goHasLib (b.place_piece x y c).2 (x + d.1) (y + d.2) = true) →
      (goCheckValid b x y c).1 = false) := by
  refine ⟨?_, fun p q => goRemoveDeadStones_get b c p q, ?_⟩
  · simp only [goPostMove]
    split_ifs with h
    all_goals first
      | rw [h]
      | (simp only [Bool.not_eq_true] at h; rw [h])
  · intro hin hemp hsui hnocap
    have hemp2 : b.is_empty x y := hemp
    have hcap : goCanCapture (b.place_piece x y c).2 x y c = false := by
      apply List.any_eq_false.mpr
      intro d hd
      rcases hg : (b.place_piece x y c).2.get_piece (x + d.1) (y + d.2) with _ | c'
      · simp [hg]
      · by_cases hc' : c' = c.opponent
        · subst hc'
          have := hnocap d hd hg
          simp [hg, this]
        · simp [hg, hc']
    simp only [goCheckValid]
    rw [if_neg (not_not_intro hin), if_neg (not_not_intro hemp2)]
    rw [hsui]
    simp [hcap]

/-- Witness for C2 at a concrete input: on the two-by-two board with
black stones at (1,0) and (0,1), white at the corner (0,0) is rejected
as suicide. -/
theorem go_capture_and_suicide_witness :
    goSuicideBoard.InB 0 0 ∧
    goSuicideBoard.get_piece 0 0 = none ∧
    goHasLib (goSuicideBoard.place_piece 0 0 Color.white).2 0 0 = false ∧
    (∀ d ∈ goNeighborDirs,
      (goSuicideBoard.place_piece 0 0 Color.white).2.get_piece (0 + d.1) (0 + d.2) =
        some Color.white.opponent →
      goHasLib (goSuicideBoard.place_piece 0 0 Color.white).2 (0 + d.1) (0 + d.2) = true) ∧
    (goCheckValid goSuicideBoard 0 0 Color.white).1 = false := by
  refine ⟨by decide, by decide, by decide, by decide, ?_⟩
  exact (go_capture_and_suicide goSuicideBoard 0 0 Color.white {}).2.2
    (by decide) (by decide) (by decide) (by decide)

/-! ## Go passes and the stone-count winner (C7) -/

/-- Counterexample to C7 as stated.  First: a second consecutive pass
does end the game, but the winner is not decided by stone count — the
state ends with winner None although black has strictly more stones on
the board.  Second: on a board exactly 90 percent full (ten empty cells
out of a hundred) check_winner still reports no winner, against the
claim's "at least 90% full". -/
theorem go_double_pass_counterexample :
    (passMove Strat.go goPassState).1 = true ∧
    (passMove Strat.go goPassState).2.2.gs.game_over = true ∧
    (passMove Strat.go goPassState).2.2.gs.winner = none ∧
    blackCount goPassState.board = 1 ∧
    whiteCount goPassState.board = 0 ∧
    (none : Option Winner) ≠ some Winner.black ∧
    10 * emptyCount ninetyBoard = ninetyBoard.size * ninetyBoard.size ∧
    blackCount ninetyBoard = 90 ∧
    whiteCount ninetyBoard = 0 ∧
    goCheckWinner ninetyBoard none = (false, none) := by
  refine ⟨?_, ?_, ?_, by decide, by decide, by decide, by decide, by decide,
    by decide, by decide⟩
  · decide
  · decide
  · decide

/-- Claim C7 amended: two consecutive passes end the game with winner
None (no stone counting happens on the pass path), and check_winner
decides by stone count — more stones wins, ties draw — exactly when the
empty cells are strictly fewer than a tenth of the board. -/
theorem go_pass_and_count_winner (gs : GState) (b : Board) (last : Option (Int × Int)) :
    (1 ≤ gs.pass_count →
      (goHandlePass gs).1 = true ∧
      (goHandlePass gs).2.2.game_over = true ∧
      (goHandlePass gs).2.2.winner = none) ∧
    (10 * emptyCount b < b.size * b.size →
      goCheckWinner b last = (true, some (goStoneWinner b))) ∧
    (¬ 10 * emptyCount b < b.size * b.size →
      goCheckWinner b last = (false, none)) := by
  refine ⟨?_, ?_, ?_⟩
  · intro h
    simp only [goHandlePass]
    rw [if_pos (by omega : 2 ≤ gs.pass_count + 1)]
    exact ⟨rfl, rfl, rfl⟩
  · intro h
    simp only [goCheckWinner, goStoneWinner]
    rw [if_pos h]
    split_ifs <;> rfl
  · intro h
    simp only [goCheckWinner]
    rw [if_neg h]

/-- Witness for the amended C7 at concrete inputs: a state one pass from
the double pass, and the full one-cell white board. -/
theorem go_pass_and_count_winner_witness :
    1 ≤ ({ pass_count := 1 } : GState).pass_count ∧
    (goHandlePass { pass_count := 1 }).2.2.game_over = true ∧
    (goHandlePass { pass_count := 1 }).2.2.winner = none ∧
    10 * emptyCount whiteWonBoard < whiteWonBoard.size * whiteWonBoard.size ∧
    goCheckWinner whiteWonBoard none = (true, some (goStoneWinner whiteWonBoard)) := by
  refine ⟨by decide, ?_, ?_, by decide, ?_⟩
  · exact ((go_pass_and_count_winner { pass_count := 1 } whiteWonBoard none).1
      (by decide)).2.1
  · exact ((go_pass_and_count_winner { pass_count := 1 } whiteWonBoard none).1
      (by decide)).2.2
  · exact (go_pass_and_count_winner { pass_count := 1 } whiteWonBoard none).2.1
      (by decide)

/-! ## MCTS selection (C5) -/

/-- With a zero exploration parameter the UCB1 weight is the bare
exploitation term q divided by n. -/
theorem ucbWeight_zero (N : Nat) (s : MTree) :
    ucbWeight 0 N s = (s.q : ℝ) / (s.n : ℝ) := by
  unfold ucbWeight
  rw [zero_mul, add_zero]

/-- Counterexample to C5 as stated: the exploitation term best_child
computes is q/n = (wins - losses)/visits, not wins/visits: on a child
with one visit and one recorded loss the code's weight differs from the
spec's formula although the exploration terms agree. -/
theorem ucb_exploitation_counterexample :
    ucbWeight 1.4 2 lossNode ≠ specUcbWeight 1.4 2 lossNode := by
  unfold ucbWeight specUcbWeight
  have hq : ((MTree.q lossNode : Int) : ℝ) = -1 := by
    norm_num [MTree.q, lossNode, MTree.wins, MTree.losses]
  have hw : ((MTree.wins lossNode : Nat) : ℝ) = 0 := by
    norm_num [lossNode, MTree.wins]
  have hn : ((MTree.n lossNode : Nat) : ℝ) = 1 := by
    norm_num [lossNode, MTree.n]
  rw [hq, hw, hn]
  intro h
  have h2 := add_right_cancel h
  norm_num at h2

/-- The np.argmax fold returns either the incumbent index or one of the
scanned positions, and in either case an index whose value dominates the
incumbent and every scanned element. -/
theorem argmaxAux_spec : ∀ (l : List ℝ) (i bi : Nat) (bv : ℝ),
    ∃ mv : ℝ,
      ((argmaxAux l i bi bv = bi ∧ mv = bv) ∨
        (∃ k, ∃ h : k < l.length, argmaxAux l i bi bv = i + k ∧ mv = l.get ⟨k, h⟩)) ∧
      bv ≤ mv ∧ ∀ v ∈ l, v ≤ mv := by
  intro l
  induction l with
  | nil =>
    intro i bi bv
    exact ⟨bv, Or.inl ⟨rfl, rfl⟩, le_rfl, by intro v hv; cases hv⟩
  | cons v rest ih =>
    intro i bi bv
    by_cases hlt : bv < v
    · obtain ⟨mv, hbr, hle, hall⟩ := ih (i + 1) i v
      refine ⟨mv, ?_, le_of_lt (lt_of_lt_of_le hlt hle), ?_⟩
      · rcases hbr with ⟨heq, hmv⟩ | ⟨k, hk, heq, hmv⟩
        · refine Or.inr ⟨0, Nat.succ_pos _, ?_, hmv⟩
          simpa [argmaxAux, hlt] using heq
        · refine Or.inr ⟨k + 1, by simp only [List.length_cons]; omega, ?_, hmv⟩
          rw [show argmaxAux (v :: rest) i bi bv = argmaxAux rest (i + 1) i v from by
            simp [argmaxAux, hlt]]
          omega
      · intro u hu
        rcases List.mem_cons.mp hu with rfl | hu2
        · exact hle
        · exact hall u hu2
    · obtain ⟨mv, hbr, hle, hall⟩ := ih (i + 1) bi bv
      refine ⟨mv, ?_, hle, ?_⟩
      · rcases hbr with ⟨heq, hmv⟩ | ⟨k, hk, heq, hmv⟩
        · exact Or.inl ⟨by simpa [argmaxAux, hlt] using heq, hmv⟩
        · refine Or.inr ⟨k + 1, by simp only [List.length_cons]; omega, ?_, hmv⟩
          rw [show argmaxAux (v :: rest) i bi bv = argmaxAux rest (i + 1) bi bv from by
            simp [argmaxAux, hlt]]
          omega
      · intro u hu
        rcases List.mem_cons.mp hu with rfl | hu2
        · exact le_trans (le_of_not_lt hlt) hle
        · exact hall u hu2

/-- np.argmax of a nonempty list points inside it, at a maximal value. -/
theorem argmaxIdx_spec (l : List ℝ) (hl : l ≠ []) :
    ∃ h : argmaxIdx l < l.length, ∀ v ∈ l, v ≤ l.get ⟨argmaxIdx l, h⟩ := by
  cases l with
  | nil => exact absurd rfl hl
  | cons v rest =>
    obtain ⟨mv, hbr, hle, hall⟩ := argmaxAux_spec rest 1 0 v
    have hmax : ∀ u ∈ v :: rest, u ≤ mv := by
      intro u hu
      rcases List.mem_cons.mp hu with rfl | hu2
      · exact hle
      · exact hall u hu2
    rcases hbr with ⟨heq, hmv⟩ | ⟨k, hk, heq, hmv⟩
    · have hidx0 : argmaxIdx (v :: rest) = 0 := heq
      have hlt0 : argmaxIdx (v :: rest) < (v :: rest).length := by
        rw [hidx0]
        exact Nat.succ_pos _
      refine ⟨hlt0, ?_⟩
      intro u hu
      have hfin : (⟨argmaxIdx (v :: rest), hlt0⟩ : Fin (v :: rest).length) =
          ⟨0, Nat.succ_pos _⟩ := Fin.ext hidx0
      rw [hfin]
      show u ≤ v
      exact le_of_le_of_eq (hmax u hu) hmv
    · have hidxk : argmaxIdx (v :: rest) = k + 1 := by
        have h1 : argmaxIdx (v :: rest) = 1 + k := heq
        omega
      have hltk : argmaxIdx (v :: rest) < (v :: rest).length := by
        simp only [List.length_cons]
        omega
      refine ⟨hltk, ?_⟩
      intro u hu
      have hfin : (⟨argmaxIdx (v :: rest), hltk⟩ : Fin (v :: rest).length) =
          ⟨k + 1, by simp only [List.length_cons]; omega⟩ := Fin.ext hidxk
      rw [hfin]
      show u ≤ rest.get ⟨k, hk⟩
      exact le_of_le_of_eq (hmax u hu) hmv

/-- Claim C5 amended: best_child scores a child as exploitation plus
exploration where the exploitation term is (wins - losses)/visits, and
the final recommendation of best_action is the parent_action of
best_child with c = 0, which maximizes that exploitation term alone
over the children. -/
theorem best_child_final_selection (c : ℝ) (N : Nat) (t : MTree)
    (hne : t.children ≠ []) :
    (∀ s : MTree, ucbWeight c N s =
      ((s.wins : ℝ) - (s.losses : ℝ)) / (s.n : ℝ) +
        c * Real.sqrt (2 * Real.log (N : ℝ) / (s.n : ℝ))) ∧
    bestChild 0 t ∈ t.children ∧
    (∀ s ∈ t.children,
      (s.q : ℝ) / (s.n : ℝ) ≤ ((bestChild 0 t).q : ℝ) / ((bestChild 0 t).n : ℝ)) ∧
    (∀ st picks sims root, mctsBestAction st picks sims root =
      (bestChild 0 (mctsSearch st picks sims root)).parentAction) := by
  have hfor : ∀ s : MTree, ucbWeight c N s =
      ((s.wins : ℝ) - (s.losses : ℝ)) / (s.n : ℝ) +
        c * Real.sqrt (2 * Real.log (N : ℝ) / (s.n : ℝ)) := by
    intro s
    unfold ucbWeight MTree.q
    push_cast
    ring
  have hws : t.children.map (ucbWeight 0 t.n) ≠ [] := by
    intro hc
    exact hne (List.map_eq_nil.mp hc)
  obtain ⟨hlt, hmax⟩ := argmaxIdx_spec (t.children.map (ucbWeight 0 t.n)) hws
  rw [List.length_map] at hlt
  have hbc : bestChild 0 t = t.children.get ⟨argmaxIdx (t.children.map (ucbWeight 0 t.n)), hlt⟩ := by
    unfold bestChild
    exact List.getD_eq_get _ _ hlt
  refine ⟨hfor, ?_, ?_, fun st picks sims root => rfl⟩
  · rw [hbc]
    exact List.get_mem _ _ _
  · intro s hs
    have hsw := hmax (ucbWeight 0 t.n s) (List.mem_map.mpr ⟨s, hs, rfl⟩)
    rw [List.get_map] at hsw
    rw [ucbWeight_zero, ucbWeight_zero] at hsw
    rw [hbc]
    exact hsw

/-- Witness for the amended C5 at a concrete input: the root with a
single losing child. -/
theorem best_child_final_selection_witness :
    lossRoot.children ≠ [] ∧ bestChild 0 lossRoot ∈ lossRoot.children := by
  have hne : lossRoot.children ≠ [] := by
    show ([lossNode] : List MTree) ≠ []
    exact List.cons_ne_nil _ _
  exact ⟨hne, (best_child_final_selection 1.4 2 lossRoot hne).2.1⟩

/-! ## MCTS backpropagation (C6) -/

/-- Counterexample to C6 as stated.  A rollout from a white node on the
single-white-stone board returns +1; backpropagation records that same
+1 — a win increment — at every node of the chain, including the black
parent, for which the claim demands the outcome judged by its own color,
-1.  Moreover a reported draw yields -1, not 0, from the rollout. -/
theorem backprop_perspective_counterexample :
    rolloutLoop Strat.reversi Color.white pickZero 2 0 whiteWonBoard Color.white = 1 ∧
    backpropagate 1 [zeroStats, zeroStats] =
      [⟨1, 1, 0, 0⟩, ⟨1, 1, 0, 0⟩] ∧
    specOutcome Color.black (some Winner.white) = -1 ∧
    recordResult (-1) zeroStats ≠ recordResult 1 zeroStats ∧
    checkWinner Strat.reversi drawBoard none = (true, some Winner.draw) ∧
    rolloutLoop Strat.reversi Color.black pickZero 5 0 drawBoard Color.black = -1 ∧
    specOutcome Color.black (some Winner.draw) = 0 ∧
    (-1 : Int) ≠ 0 := by
  refine ⟨?_, ?_, ?_, ?_, ?_, ?_, ?_, ?_⟩ <;> decide

/-- Claim C6 amended: backpropagation records the one rollout result,
judged relative to the rolled-out node's own color and not re-judged per
ancestor, at every node of the chain, incrementing each visit count by
exactly one; the rollout returns +1 when the reported winner is the
rollout node's color, -1 on any other reported outcome (a draw
included), and 0 when no legal move remains. -/
theorem backprop_and_rollout_outcomes (r : Int) (path : List MStats) (st : Strat)
    (c cur : Color) (picks : Nat → Nat) (fuel step : Nat) (b : Board) :
    backpropagate r path = path.map (recordResult r) ∧
    (∀ s : MStats, (recordResult r s).visits = s.visits + 1) ∧
    (∀ w, checkWinner st b none = (true, w) →
      rolloutLoop st c picks (fuel + 1) step b cur =
        if w = some (Winner.ofColor c) then 1 else -1) ∧
    (∀ w0, checkWinner st b none = (false, w0) → (legalMoves st b cur).1 = [] →
      rolloutLoop st c picks (fuel + 1) step b cur = 0) := by
  refine ⟨?_, fun s => rfl, ?_, ?_⟩
  · induction path with
    | nil => rfl
    | cons s rest ih => simp [backpropagate, ih]
  · intro w hw
    simp [rolloutLoop, hw]
  · intro w0 hw hmoves
    simp [rolloutLoop, hw, hmoves]

/-- Witness for the amended C6 at concrete inputs: the immediate white
win and a two-element chain. -/
theorem backprop_and_rollout_outcomes_witness :
    checkWinner Strat.reversi whiteWonBoard none = (true, some Winner.white) ∧
    rolloutLoop Strat.reversi Color.white pickZero 2 0 whiteWonBoard Color.white =
      (if some Winner.white = some (Winner.ofColor Color.white) then 1 else -1) ∧
    backpropagate 1 [zeroStats, zeroStats] =
      [zeroStats, zeroStats].map (recordResult 1) := by
  refine ⟨by decide, ?_, ?_⟩
  · exact (backprop_and_rollout_outcomes 1 [] Strat.reversi Color.white Color.white
      pickZero 1 0 whiteWonBoard).2.2.1 (some Winner.white) (by decide)
  · exact (backprop_and_rollout_outcomes 1 [zeroStats, zeroStats] Strat.reversi
      Color.white Color.white pickZero 1 0 whiteWonBoard).1

/-! ## AI board frame (C10) -/

/-- The greedy evaluator's speculative place is undone by the following
remove on any legal (in-bounds, empty) cell. -/
theorem gomokuEvalPos_board (b : Board) (x y : Int) (c : Color)
    (hin : b.InB x y) (hemp : b.get_piece x y = none) :
    (gomokuEvalPos b x y c).2 = b := by
  show ((b.place_piece x y c).2.remove_piece x y).2 = b
  exact place_remove_cancel b x y c hin (grid_none_of_empty b x y hin hemp)

/-- The greedy best-score fold returns the board unchanged when every
scored move names an in-bounds empty cell. -/
theorem gomokuGreedyAux_board (c : Color) :
    ∀ (l : List (Int × Int)) (b : Board) (bs : Option ℚ) (bm : List (Int × Int)),
      (∀ m ∈ l, b.InB m.1 m.2 ∧ b.get_piece m.1 m.2 = none) →
      (gomokuGreedyAux c l b bs bm).1 = b := by
  intro l
  induction l with
  | nil => intro b bs bm _; rfl
  | cons p rest ih =>
    intro b bs bm h
    obtain ⟨x, y⟩ := p
    obtain ⟨hin, hemp⟩ := h (x, y) (List.mem_cons_self _ _)
    have h1 : (gomokuEvalPos b x y c).2 = b := gomokuEvalPos_board b x y c hin hemp
    have h2 : (gomokuEvalPos (gomokuEvalPos b x y c).2 x y c.opponent).2 = b := by
      rw [h1]
      exact gomokuEvalPos_board b x y c.opponent hin hemp
    have hrest : ∀ m ∈ rest, b.InB m.1 m.2 ∧ b.get_piece m.1 m.2 = none :=
      fun m hm => h m (List.mem_cons_of_mem _ hm)
    cases bs with
    | none =>
      simp only [gomokuGreedyAux]
      rw [h2]
      exact ih b _ _ hrest
    | some best =>
      simp only [gomokuGreedyAux]
      split_ifs <;> (rw [h2]; exact ih b _ _ hrest)

/-- Claim C10: every AI strategy's get_action returns the board it was
given unchanged — the legality probes restore it, the greedy evaluator's
place is undone by its remove, and the MCTS search runs entirely on the
root node's own copies. -/
theorem getAction_board_frame (st : Strat) (b : Board) (c : Color) (rng : Nat)
    (picks : Nat → Nat) (sims : Nat) :
    (randomGetAction st b c rng).2 = b ∧
    (gomokuGreedyGetAction st b c rng).2 = b ∧
    (revGreedyGetAction st b c).2 = b ∧
    (mctsGetAction st b c picks sims).2 = b := by
  have hlm : (legalMoves st b c).2 = b := legalMoves_board_eq st b c
  refine ⟨?_, ?_, ?_, ?_⟩
  · simp only [randomGetAction]
    split_ifs <;> exact hlm
  · simp only [gomokuGreedyGetAction]
    split_ifs with hcase
    · exact hlm
    · show (gomokuGreedyAux c (legalMoves st b c).1 (legalMoves st b c).2 none []).1 = b
      rw [hlm]
      exact gomokuGreedyAux_board c _ b none []
        (fun m hm => legalMoves_mem st b c m hm)
  · simp only [revGreedyGetAction]
    split_ifs <;> exact hlm
  · simp only [mctsGetAction]
    split_ifs <;> exact hlm

/-! ## Reversi bracketed rays and flips (C3) -/

theorem Color.opponent_ne (c : Color) : c.opponent ≠ c := by
  cases c <;> decide

theorem Color.eq_of_ne_opponent {pc c : Color} (h : pc ≠ c.opponent) : pc = c := by
  cases pc <;> cases c <;> first | rfl | (exact absurd rfl h)

/-- No direction of the Reversi scan is the zero vector. -/
theorem revDirs_nonzero {dx dy : Int} (hd : (dx, dy) ∈ revDirs) :
    ¬ (dx = 0 ∧ dy = 0) := by
  fin_cases hd <;> simp

/-- Out of bounds, every board reads empty. -/
theorem get_none_of_not_inB {b : Board} {p q : Int} (h : ¬ b.InB p q) :
    b.get_piece p q = none := by
  unfold Board.get_piece
  rw [if_neg h]

/-- place_piece leaves the raw grid unchanged off the targeted cell. -/
theorem Board.place_grid_other (b : Board) (u v : Int) (c : Color) (p q : Int)
    (hne : ¬(p = u ∧ q = v)) :
    (b.place_piece u v c).2.grid p q = b.grid p q := by
  unfold Board.place_piece
  split_ifs with h
  · show setCell b.grid u v (some c) p q = b.grid p q
    unfold setCell
    rw [if_neg hne]
  · rfl

/-- place_piece changes no other cell's reading. -/
theorem Board.place_get_other (b : Board) (u v : Int) (c : Color) (p q : Int)
    (hne : ¬(p = u ∧ q = v)) :
    (b.place_piece u v c).2.get_piece p q = b.get_piece p q := by
  unfold Board.place_piece
  split_ifs with h
  · show (if b.InB p q then setCell b.grid u v (some c) p q else none) = b.get_piece p q
    unfold setCell
    rw [if_neg hne]
    rfl
  · rfl

/-- Extending the collected prefix of a ray by its next cell. -/
theorem rayCells_snoc (x y dx dy : Int) (j : Nat) (hj : 1 ≤ j) :
    rayCells x y dx dy (j - 1) ++ [(x + (j : Int) * dx, y + (j : Int) * dy)] =
      rayCells x y dx dy j := by
  unfold rayCells
  conv_rhs => rw [show j = (j - 1) + 1 by omega, List.range_succ]
  rw [List.map_append]
  congr 1
  simp only [List.map_cons, List.map_nil]
  congr 2 <;> (push_cast [Nat.cast_sub hj]; ring)

/-- Membership in the cells of a ray. -/
theorem rayCells_mem (x y dx dy : Int) (k : Nat) (p q : Int) :
    (p, q) ∈ rayCells x y dx dy k ↔
      ∃ i : Nat, i < k ∧ p = x + ((i : Int) + 1) * dx ∧ q = y + ((i : Int) + 1) * dy := by
  unfold rayCells
  constructor
  · intro h
    rcases List.mem_map.mp h with ⟨i, hi, heq⟩
    rw [List.mem_range] at hi
    exact ⟨i, hi, (congrArg Prod.fst heq).symm, (congrArg Prod.snd heq).symm⟩
  · intro ⟨i, hi, hp, hq⟩
    exact List.mem_map.mpr ⟨i, List.mem_range.mpr hi, by rw [hp, hq]⟩

/-- When no bracketed run exists along a direction, the ray walk returns
nothing: it exits by the border, an empty cell, or an own piece with an
empty collection, or would be refuted by the run its collection
witnesses. -/
theorem revScan_none_aux (b : Board) (c : Color) (dx dy x y : Int)
    (hnone : ∀ k : Nat, ¬ BracketRun b x y c dx dy k) :
    ∀ (fuel j : Nat), 1 ≤ j →
      (∀ i : Nat, 1 ≤ i → i < j →
        b.get_piece (x + (i : Int) * dx) (y + (i : Int) * dy) = some c.opponent) →
      revScan b c dx dy fuel (x + (j : Int) * dx) (y + (j : Int) * dy)
        (rayCells x y dx dy (j - 1)) = [] := by
  intro fuel
  induction fuel with
  | zero => intro j hj hpre; rfl
  | succ n ih =>
    intro j hj hpre
    by_cases hin : b.InB (x + (j : Int) * dx) (y + (j : Int) * dy)
    · rcases hg : b.grid (x + (j : Int) * dx) (y + (j : Int) * dy) with _ | pc
      · simp [revScan, hin, hg]
      · have hget : b.get_piece (x + (j : Int) * dx) (y + (j : Int) * dy) = some pc := by
          unfold Board.get_piece
          rw [if_pos hin, hg]
        by_cases hpc : pc = c.opponent
        · subst hpc
          have e1 : (x + (j : Int) * dx) + dx = x + ((j + 1 : Nat) : Int) * dx := by
            push_cast
            ring
          have e2 : (y + (j : Int) * dy) + dy = y + ((j + 1 : Nat) : Int) * dy := by
            push_cast
            ring
          have htemp := rayCells_snoc x y dx dy j hj
          have hih := ih (j + 1) (by omega) (by
            intro i hi1 hi2
            by_cases hij : i = j
            · subst hij
              exact hget
            · exact hpre i hi1 (by omega))
          rw [show (j + 1) - 1 = j by omega] at hih
          simp only [revScan, if_pos hin, hg, if_pos rfl]
          rw [e1, e2, htemp]
          exact hih
        · have hpc2 : pc = c := Color.eq_of_ne_opponent hpc
          subst hpc2
          by_cases htempn : rayCells x y dx dy (j - 1) = []
          · simp [revScan, hin, hg, hpc, htempn]
          · exfalso
            have hj2 : 2 ≤ j := by
              by_contra h2
              have hj1 : j = 1 := by omega
              rw [hj1] at htempn
              exact htempn rfl
            apply hnone (j - 1)
            refine ⟨by omega, ?_, ?_⟩
            · intro i hi1 hi2
              exact hpre i hi1 (by omega)
            · have e3 : x + (((j - 1 : Nat) : Int) + 1) * dx = x + (j : Int) * dx := by
                push_cast [Nat.cast_sub hj]
                ring
              have e4 : y + (((j - 1 : Nat) : Int) + 1) * dy = y + (j : Int) * dy := by
                push_cast [Nat.cast_sub hj]
                ring
              rw [e3, e4]
              exact hget
    · simp [revScan, hin]

/-- With a bracketed run of length k along the direction, the ray walk
collects exactly the k run cells. -/
theorem revScan_run_aux (b : Board) (c : Color) (dx dy x y : Int) (k : Nat)
    (hrun : BracketRun b x y c dx dy k) :
    ∀ (fuel j : Nat), 1 ≤ j → j ≤ k + 1 → k + 2 - j ≤ fuel →
      revScan b c dx dy fuel (x + (j : Int) * dx) (y + (j : Int) * dy)
        (rayCells x y dx dy (j - 1)) = rayCells x y dx dy k := by
  obtain ⟨hk, hmid, hend⟩ := hrun
  intro fuel
  induction fuel with
  | zero => intro j hj hjk hfuel; omega
  | succ n ih =>
    intro j hj hjk hfuel
    by_cases hjle : j ≤ k
    · have hget := hmid j hj hjle
      have hin : b.InB (x + (j : Int) * dx) (y + (j : Int) * dy) := get_some_inB hget
      have hg : b.grid (x + (j : Int) * dx) (y + (j : Int) * dy) = some c.opponent := by
        unfold Board.get_piece at hget
        rwa [if_pos hin] at hget
      have e1 : (x + (j : Int) * dx) + dx = x + ((j + 1 : Nat) : Int) * dx := by
        push_cast
        ring
      have e2 : (y + (j : Int) * dy) + dy = y + ((j + 1 : Nat) : Int) * dy := by
        push_cast
        ring
      have htemp := rayCells_snoc x y dx dy j hj
      have hih := ih (j + 1) (by omega) (by omega) (by omega)
      rw [show (j + 1) - 1 = j by omega] at hih
      simp only [revScan, if_pos hin, hg, if_pos rfl]
      rw [e1, e2, htemp]
      exact hih
    · have hjk1 : j = k + 1 := by omega
      subst hjk1
      have hget : b.get_piece (x + ((k + 1 : Nat) : Int) * dx)
          (y + ((k + 1 : Nat) : Int) * dy) = some c := by
        have e3 : x + (((k : Nat) : Int) + 1) * dx = x + ((k + 1 : Nat) : Int) * dx := by
          push_cast
          ring
        have e4 : y + (((k : Nat) : Int) + 1) * dy = y + ((k + 1 : Nat) : Int) * dy := by
          push_cast
          ring
        rw [← e3, ← e4]
        exact hend
      have hin := get_some_inB hget
      have hg : b.grid (x + ((k + 1 : Nat) : Int) * dx) (y + ((k + 1 : Nat) : Int) * dy) =
          some c := by
        unfold Board.get_piece at hget
        rwa [if_pos hin] at hget
      have htempn : rayCells x y dx dy ((k + 1) - 1) ≠ [] := by
        rw [show (k + 1) - 1 = k by omega]
        unfold rayCells
        intro hc
        have := List.map_eq_nil_iff.mp hc
        rw [List.range_eq_nil] at this
        omega
      simp only [revScan, if_pos hin, hg, if_neg (Color.opponent_ne c).symm,
        if_neg htempn]
      rw [show (k + 1) - 1 = k by omega]

/-- The length of a bracketed run is bounded by the board size: its
first and last cells are in bounds and the direction moves by one cell
per step. -/
theorem bracket_run_bound {b : Board} {c : Color} {dx dy x y : Int} {k : Nat}
    (hd : (dx, dy) ∈ revDirs) (hrun : BracketRun b x y c dx dy k) :
    k + 1 ≤ b.size := by
  obtain ⟨hk, hmid, hend⟩ := hrun
  have h1 : b.InB (x + (1 : Int) * dx) (y + (1 : Int) * dy) := by
    have := hmid 1 le_rfl hk
    exact get_some_inB (by exact_mod_cast this)
  have h2 : b.InB (x + ((k : Int) + 1) * dx) (y + ((k : Int) + 1) * dy) :=
    get_some_inB hend
  unfold Board.InB at h1 h2
  fin_cases hd <;>
    (simp only [mul_one, mul_neg_one, mul_zero, add_zero, one_mul] at h1 h2; omega)

/-- The ray scan of a direction that brackets a run of length k returns
exactly the run's cells. -/
theorem revScanDir_of_run {b : Board} {c : Color} {dx dy x y : Int} {k : Nat}
    (hd : (dx, dy) ∈ revDirs) (hrun : BracketRun b x y c dx dy k) :
    revScanDir b c x y dx dy = rayCells x y dx dy k := by
  have hbound := bracket_run_bound hd hrun
  have h := revScan_run_aux b c dx dy x y k hrun (b.size + 1) 1 le_rfl
    (by omega) (by omega)
  unfold revScanDir
  rw [show x + dx = x + ((1 : Nat) : Int) * dx by push_cast; ring,
    show y + dy = y + ((1 : Nat) : Int) * dy by push_cast; ring]
  simpa [rayCells] using h

/-- The ray scan of a direction bracketing no run returns nothing. -/
theorem revScanDir_of_no_run {b : Board} {c : Color} {dx dy x y : Int}
    (hnone : ∀ k : Nat, ¬ BracketRun b x y c dx dy k) :
    revScanDir b c x y dx dy = [] := by
  have h := revScan_none_aux b c dx dy x y hnone (b.size + 1) 1 le_rfl
    (by intro i hi1 hi2; omega)
  unfold revScanDir
  rw [show x + dx = x + ((1 : Nat) : Int) * dx by push_cast; ring,
    show y + dy = y + ((1 : Nat) : Int) * dy by push_cast; ring]
  simpa [rayCells] using h

/-- A ray scan is empty exactly when its direction brackets no run. -/
theorem revScanDir_nil_iff {b : Board} {c : Color} {dx dy x y : Int}
    (hd : (dx, dy) ∈ revDirs) :
    revScanDir b c x y dx dy = [] ↔ ∀ k : Nat, ¬ BracketRun b x y c dx dy k := by
  constructor
  · intro hnil k hrun
    have := revScanDir_of_run hd hrun
    rw [hnil] at this
    have hk := hrun.1
    have : (List.range k).map
        (fun (i : Nat) => (x + ((i : Int) + 1) * dx, y + ((i : Int) + 1) * dy)) = [] :=
      this.symm
    rw [List.map_eq_nil_iff, List.range_eq_nil] at this
    omega
  · exact revScanDir_of_no_run

/-- The ray walk reads the same cells on two boards of equal size that
agree everywhere off the anchor, since a ray from the anchor along a
nonzero direction never revisits it. -/
theorem revScan_congr (b b' : Board) (c : Color) (dx dy x y : Int)
    (hs : b'.size = b.size)
    (hagree : ∀ p q, ¬(p = x ∧ q = y) → b'.grid p q = b.grid p q)
    (hdne : ¬(dx = 0 ∧ dy = 0)) :
    ∀ (fuel j : Nat) (temp : List (Int × Int)), 1 ≤ j →
      revScan b' c dx dy fuel (x + (j : Int) * dx) (y + (j : Int) * dy) temp =
      revScan b c dx dy fuel (x + (j : Int) * dx) (y + (j : Int) * dy) temp := by
  intro fuel
  induction fuel with
  | zero => intro j temp hj; rfl
  | succ n ih =>
    intro j temp hj
    have hne : ¬(x + (j : Int) * dx = x ∧ y + (j : Int) * dy = y) := by
      intro ⟨hpx, hpy⟩
      have hjx : (j : Int) * dx = 0 := by omega
      have hjy : (j : Int) * dy = 0 := by omega
      have hj0 : (j : Int) ≠ 0 := by
        intro hc
        omega
      rcases mul_eq_zero.mp hjx with h | h
      · exact absurd h hj0
      · rcases mul_eq_zero.mp hjy with h2 | h2
        · exact absurd h2 hj0
        · exact hdne ⟨h, h2⟩
    have hinb : b'.InB (x + (j : Int) * dx) (y + (j : Int) * dy) ↔
        b.InB (x + (j : Int) * dx) (y + (j : Int) * dy) := by
      unfold Board.InB
      rw [hs]
    have hgr := hagree (x + (j : Int) * dx) (y + (j : Int) * dy) hne
    by_cases hin : b.InB (x + (j : Int) * dx) (y + (j : Int) * dy)
    · rcases hg : b.grid (x + (j : Int) * dx) (y + (j : Int) * dy) with _ | pc
      · rw [hg] at hgr
        simp [revScan, hin, hinb.mpr hin, hg, hgr]
      · rw [hg] at hgr
        by_cases hpc : pc = c.opponent
        · subst hpc
          have e1 : (x + (j : Int) * dx) + dx = x + ((j + 1 : Nat) : Int) * dx := by
            push_cast
            ring
          have e2 : (y + (j : Int) * dy) + dy = y + ((j + 1 : Nat) : Int) * dy := by
            push_cast
            ring
          simp only [revScan, if_pos hin, if_pos (hinb.mpr hin), hg, hgr, if_pos rfl]
          rw [e1, e2]
          exact ih (j + 1) _ (by omega)
        · simp [revScan, hin, hinb.mpr hin, hg, hgr, hpc]
    · have hin' : ¬ b'.InB (x + (j : Int) * dx) (y + (j : Int) * dy) :=
        fun hc => hin (hinb.mp hc)
      simp only [revScan, if_neg hin, if_neg hin']

/-- In-bounds checks agree on boards of equal size. -/
theorem Board.inB_congr {b b' : Board} (h : b'.size = b.size) (p q : Int) :
    b'.InB p q ↔ b.InB p q := by
  unfold Board.InB
  rw [h]

/-- Placing the anchor stone does not change a ray scanned from it. -/
theorem revScanDir_place (b : Board) (x y : Int) (c : Color) (dx dy : Int)
    (hdne : ¬(dx = 0 ∧ dy = 0)) :
    revScanDir (b.place_piece x y c).2 c x y dx dy = revScanDir b c x y dx dy := by
  unfold revScanDir
  rw [Board.place_size]
  rw [show x + dx = x + ((1 : Nat) : Int) * dx by push_cast; ring,
    show y + dy = y + ((1 : Nat) : Int) * dy by push_cast; ring]
  exact revScan_congr b (b.place_piece x y c).2 c dx dy x y (Board.place_size b x y c)
    (fun p q hne => Board.place_grid_other b x y c p q hne) hdne (b.size + 1) 1 [] le_rfl

/-- Placing the anchor stone does not change the flip scan anchored
there. -/
theorem revFlipsAll_place (b : Board) (x y : Int) (c : Color) :
    revFlipsAll (b.place_piece x y c).2 c x y = revFlipsAll b c x y := by
  unfold revFlipsAll revDirs
  simp only [List.flatMap_cons, List.flatMap_nil, List.append_nil]
  rw [revScanDir_place b x y c (-1) (-1) (by decide),
    revScanDir_place b x y c (-1) 0 (by decide),
    revScanDir_place b x y c (-1) 1 (by decide),
    revScanDir_place b x y c 0 (-1) (by decide),
    revScanDir_place b x y c 0 1 (by decide),
    revScanDir_place b x y c 1 (-1) (by decide),
    revScanDir_place b x y c 1 0 (by decide),
    revScanDir_place b x y c 1 1 (by decide)]

/-- After remove_piece an in-bounds target cell's raw grid entry is
empty. -/
theorem remove_grid_self_none (b : Board) (u v : Int) (hin : b.InB u v) :
    (b.remove_piece u v).2.grid u v = none := by
  unfold Board.remove_piece
  split_ifs with h
  · show setCell b.grid u v none u v = none
    unfold setCell
    rw [if_pos ⟨rfl, rfl⟩]
  · by_cases hgr : b.grid u v = none
    · exact hgr
    · exact absurd ⟨hin, hgr⟩ h

/-- One flip (remove then place) makes the targeted in-bounds cell the
mover's color. -/
theorem flip_cell_get_self (b : Board) (u v : Int) (c : Color) :
    ((b.remove_piece u v).2.place_piece u v c).2.get_piece u v =
      if b.InB u v then some c else none := by
  by_cases hin : b.InB u v
  · rw [if_pos hin]
    have hrem := remove_grid_self_none b u v hin
    have hin1 : (b.remove_piece u v).2.InB u v :=
      (Board.inB_congr (Board.remove_size b u v) u v).mpr hin
    unfold Board.place_piece
    rw [if_pos ⟨hin1, hrem⟩]
    show (if (b.remove_piece u v).2.InB u v then
      setCell (b.remove_piece u v).2.grid u v (some c) u v else none) = some c
    rw [if_pos hin1]
    unfold setCell
    rw [if_pos ⟨rfl, rfl⟩]
  · rw [if_neg hin]
    apply get_none_of_not_inB
    intro hc
    apply hin
    have hsz : ((b.remove_piece u v).2.place_piece u v c).2.size = b.size := by
      rw [Board.place_size, Board.remove_size]
    exact (Board.inB_congr hsz u v).mp hc

/-- One flip changes no other cell. -/
theorem flip_cell_get_other (b : Board) (u v : Int) (c : Color) (p q : Int)
    (hne : ¬(p = u ∧ q = v)) :
    ((b.remove_piece u v).2.place_piece u v c).2.get_piece p q = b.get_piece p q := by
  rw [Board.place_get_other _ _ _ _ _ _ hne, Board.remove_get_other _ _ _ _ _ hne]

/-- Flipping a list of cells makes exactly the listed in-bounds cells the
mover's color and touches nothing else. -/
theorem flipList_get (c : Color) : ∀ (L : List (Int × Int)) (b : Board) (p q : Int),
    (flipList b c L).get_piece p q =
      if (p, q) ∈ L ∧ b.InB p q then some c else b.get_piece p q := by
  intro L
  induction L with
  | nil =>
    intro b p q
    simp [flipList]
  | cons a rest ih =>
    intro b p q
    obtain ⟨u, v⟩ := a
    show (flipList ((b.remove_piece u v).2.place_piece u v c).2 c rest).get_piece p q = _
    rw [ih]
    have hsz : ((b.remove_piece u v).2.place_piece u v c).2.size = b.size := by
      rw [Board.place_size, Board.remove_size]
    have hib := Board.inB_congr hsz p q
    by_cases hmem : (p, q) ∈ rest
    · by_cases hin : b.InB p q
      · rw [if_pos ⟨hmem, hib.mpr hin⟩, if_pos ⟨List.mem_cons_of_mem _ hmem, hin⟩]
      · rw [if_neg (fun hc => hin (hib.mp hc.2)), if_neg (fun hc => hin hc.2)]
        rw [get_none_of_not_inB (fun hc => hin (hib.mp hc)), get_none_of_not_inB hin]
    · rw [if_neg (fun hc => hmem hc.1)]
      by_cases heq : (p, q) = (u, v)
      · have hp : p = u := congrArg Prod.fst heq
        have hq : q = v := congrArg Prod.snd heq
        subst hp hq
        rw [flip_cell_get_self]
        by_cases hin : b.InB p q
        · rw [if_pos hin, if_pos ⟨List.mem_cons_self _ _, hin⟩]
        · rw [if_neg hin, if_neg (fun hc => hin hc.2), get_none_of_not_inB hin]
      · rw [flip_cell_get_other b u v c p q (fun hc => heq (by rw [hc.1, hc.2]))]
        rw [if_neg (fun hc =>
          (List.mem_cons.mp hc.1).elim (fun h => heq h) (fun h => hmem h))]

/-- Membership in the concatenated flip scan is membership in some
direction's bracketed run. -/
theorem revFlipsAll_mem (b : Board) (x y : Int) (c : Color) (p q : Int) :
    (p, q) ∈ revFlipsAll b c x y ↔
      ∃ d ∈ revDirs, ∃ k, BracketRun b x y c d.1 d.2 k ∧
        (p, q) ∈ rayCells x y d.1 d.2 k := by
  unfold revFlipsAll
  rw [List.mem_flatMap]
  constructor
  · intro ⟨d, hd, hmem⟩
    by_cases hex : ∃ k, BracketRun b x y c d.1 d.2 k
    · obtain ⟨k, hk⟩ := hex
      rw [revScanDir_of_run hd hk] at hmem
      exact ⟨d, hd, k, hk, hmem⟩
    · push_neg at hex
      rw [revScanDir_of_no_run hex] at hmem
      cases hmem
  · intro ⟨d, hd, k, hk, hmem⟩
    refine ⟨d, hd, ?_⟩
    rw [revScanDir_of_run hd hk]
    exact hmem

/-- Every cell of the flip scan holds an opposing piece. -/
theorem revFlipsAll_opp (b : Board) (x y : Int) (c : Color) (p q : Int)
    (h : (p, q) ∈ revFlipsAll b c x y) :
    b.get_piece p q = some c.opponent := by
  rcases (revFlipsAll_mem b x y c p q).mp h with ⟨d, hd, k, hk, hmem⟩
  rcases (rayCells_mem x y d.1 d.2 k p q).mp hmem with ⟨i, hi, hp, hq⟩
  obtain ⟨hk1, hmid, hend⟩ := hk
  have := hmid (i + 1) (by omega) (by omega)
  rw [hp, hq]
  have e1 : x + ((i + 1 : Nat) : Int) * d.1 = x + ((i : Int) + 1) * d.1 := by
    push_cast
    ring
  have e2 : y + ((i + 1 : Nat) : Int) * d.2 = y + ((i : Int) + 1) * d.2 := by
    push_cast
    ring
  rw [e1, e2] at this
  exact this

/-- Claim C3: Reversi's check_valid_move declares an empty in-bounds
placement illegal exactly when no direction brackets a run of opposing
pieces; and post_move_processing on the placed stone flips exactly the
cells of the bracketed runs anchored there — each becomes the mover's
color, every other cell is untouched. -/
theorem reversi_bracket_flip_spec (b : Board) (x y : Int) (c : Color) (gs : GState)
    (hin : b.InB x y) (hemp : b.get_piece x y = none) :
    ((revCheckValid b x y c).1 = false ↔
      ∀ d ∈ revDirs, ∀ k : Nat, ¬ BracketRun b x y c d.1 d.2 k) ∧
    (∀ p q, (revPostMove (b.place_piece x y c).2 x y c gs).2.2.1.get_piece p q =
      if (p, q) ∈ revFlipsAll b c x y then some c
      else (b.place_piece x y c).2.get_piece p q) ∧
    (∀ p q, (p, q) ∈ revFlipsAll b c x y ↔
      ∃ d ∈ revDirs, ∃ k, BracketRun b x y c d.1 d.2 k ∧
        (p, q) ∈ rayCells x y d.1 d.2 k) ∧
    (∀ p q, (p, q) ∈ revFlipsAll b c x y → b.get_piece p q = some c.opponent) := by
  have hemp2 : b.is_empty x y := hemp
  refine ⟨?_, ?_, fun p q => revFlipsAll_mem b x y c p q,
    fun p q => revFlipsAll_opp b x y c p q⟩
  · unfold revCheckValid
    rw [if_neg (not_not_intro hin), if_neg (not_not_intro hemp2)]
    constructor
    · intro hfalse d hd k hk
      by_cases hnil : revFlipsAll b c x y = []
      · have := (revScanDir_nil_iff hd).mp (by
          have hmem := List.flatMap_eq_nil_iff.mp hnil
          exact hmem d hd)
        exact this k hk
      · rw [if_neg hnil] at hfalse
        cases hfalse
    · intro hnone
      have hnil : revFlipsAll b c x y = [] := by
        apply List.flatMap_eq_nil_iff.mpr
        intro d hd
        exact revScanDir_of_no_run (hnone d hd)
      rw [if_pos hnil]
  · intro p q
    have hpost : (revPostMove (b.place_piece x y c).2 x y c gs).2.2.1 =
        flipList (b.place_piece x y c).2 c
          (revFlipsAll (b.place_piece x y c).2 c x y) := rfl
    rw [hpost, revFlipsAll_place, flipList_get]
    by_cases hmem : (p, q) ∈ revFlipsAll b c x y
    · have hopp := revFlipsAll_opp b x y c p q hmem
      have hinb : b.InB p q := get_some_inB hopp
      have hinb2 : (b.place_piece x y c).2.InB p q :=
        (Board.inB_congr (Board.place_size b x y c) p q).mpr hinb
      rw [if_pos ⟨hmem, hinb2⟩, if_pos hmem]
    · rw [if_neg (fun hc => hmem hc.1), if_neg hmem]

/-- Witness for C3 at a concrete input: on the four-by-four board with a
white stone at (1,0) and a black stone at (2,0), black at the corner
(0,0) brackets the white stone, which the flip scan reports as an
opposing piece. -/
theorem reversi_bracket_flip_spec_witness :
    revBracketBoard.InB 0 0 ∧
    revBracketBoard.get_piece 0 0 = none ∧
    (1, 0) ∈ revFlipsAll revBracketBoard Color.black 0 0 ∧
    revBracketBoard.get_piece 1 0 = some Color.black.opponent := by
  refine ⟨by decide, by decide, by decide, ?_⟩
  exact (reversi_bracket_flip_spec revBracketBoard 0 0 Color.black {}
    (by decide) (by decide)).2.2.2 1 0 (by decide)

end GamePlatform
